import Mathlib

/-!
# Verification of the kmertools k-mer / minimiser engine

Shallow embedding of the core of the `kmertools` repository:

* `src/kmer/src/kmer.rs`      — the rolling k-mer generator (`KmerGenerator`),
  the reverse complement (`rev_comp`) and the canonical index
  (`kmer_pos_maps`);
* `src/kmer/src/minimiser.rs`  — the sliding-window minimiser generator
  (`MinimiserGenerator`);
* `src/composition/src/oligo.rs` — the oligonucleotide vectoriser
  (`OligoComputer::vectorise_one`, `vectorise_mmap`);
* `src/composition/src/cgr.rs` — the whole-sequence CGR vectoriser;
* `src/coverage/src/lib.rs`    — the coverage vectoriser;
* `src/counter/src/lib.rs`     — the chunked, partitioned external counter.

Sequences are lists of bytes (`Nat` below 256); `u64` values are embedded as
`Nat` (all arithmetic stays below `2 ^ 64` thanks to the masks the source
applies, which we keep verbatim as `&&&`/`<<<`/`>>>` operations).
Floating-point accumulators that only ever hold exact small integers and
their quotients are embedded as `ℚ`.
-/

namespace Kmertools

set_option maxRecDepth 4000

/-- The 256-entry base-encoding table `SEQ_NT4_TABLE` of
`src/kmer/src/kmer.rs` (identical copy in `minimiser.rs`), transcribed
entry for entry. -/
def SEQ_NT4_TABLE : List Nat :=
  [0, 1, 2, 3, 4, 4, 4, 4, 4, 4, 4, 4, 4, 4, 4, 4, 4, 4, 4, 4, 4, 4, 4, 4, 4, 4, 4, 4, 4, 4, 4, 4,
   4, 4, 4, 4, 4, 4, 4, 4, 4, 4, 4, 4, 4, 4, 4, 4, 4, 4, 4, 4, 4, 4, 4, 4, 4, 4, 4, 4, 4, 4, 4, 4,
   4, 0, 4, 1, 4, 4, 4, 2, 4, 4, 4, 4, 4, 4, 4, 4, 4, 4, 4, 4, 3, 3, 4, 4, 4, 4, 4, 4, 4, 4, 4, 4,
   4, 0, 4, 1, 4, 4, 4, 2, 4, 4, 4, 4, 4, 4, 4, 4, 4, 4, 4, 4, 3, 3, 4, 4, 4, 4, 4, 4, 4, 4, 4, 4,
   4, 4, 4, 4, 4, 4, 4, 4, 4, 4, 4, 4, 4, 4, 4, 4, 4, 4, 4, 4, 4, 4, 4, 4, 4, 4, 4, 4, 4, 4, 4, 4,
   4, 4, 4, 4, 4, 4, 4, 4, 4, 4, 4, 4, 4, 4, 4, 4, 4, 4, 4, 4, 4, 4, 4, 4, 4, 4, 4, 4, 4, 4, 4, 4,
   4, 4, 4, 4, 4, 4, 4, 4, 4, 4, 4, 4, 4, 4, 4, 4, 4, 4, 4, 4, 4, 4, 4, 4, 4, 4, 4, 4, 4, 4, 4, 4,
   4, 4, 4, 4, 4, 4, 4, 4, 4, 4, 4, 4, 4, 4, 4, 4, 4, 4, 4, 4, 4, 4, 4, 4, 4, 4, 4, 4, 4, 4, 4, 4]

/-- `SEQ_NT4_TABLE[b]`: the 2-bit code of byte `b` (4 = ambiguous). -/
def encode (b : Nat) : Nat := SEQ_NT4_TABLE.getD b 4

/-- A byte advances a k-mer run iff its code is below 4. -/
def validByte (b : Nat) : Bool := encode b < 4

/-- State of `KmerGenerator` (`fval`, `rval`, `len`; the byte cursor is
made explicit by the recursion in `kgRun`). -/
structure KGState where
  fval : Nat
  rval : Nat
  len : Nat
deriving Repr, DecidableEq

/-- One iteration of the loop body of `KmerGenerator::next`
(`src/kmer/src/kmer.rs`, lines 80–106): roll the forward and
reverse-complement values on a valid base, reset the run on an ambiguous
one, and emit `(fval, rval)` when the run length reaches `k`. -/
def kgStep (k : Nat) (st : KGState) (b : Nat) : KGState × Option (Nat × Nat) :=
  if encode b < 4 then
    if st.len + 1 = k then
      (⟨((st.fval <<< 2) ||| encode b) &&& (4 ^ k - 1),
        (st.rval >>> 2) ||| ((encode b ^^^ 3) <<< (2 * (k - 1))), k - 1⟩,
       some (((st.fval <<< 2) ||| encode b) &&& (4 ^ k - 1),
             (st.rval >>> 2) ||| ((encode b ^^^ 3) <<< (2 * (k - 1)))))
    else
      (⟨((st.fval <<< 2) ||| encode b) &&& (4 ^ k - 1),
        (st.rval >>> 2) ||| ((encode b ^^^ 3) <<< (2 * (k - 1))), st.len + 1⟩, none)
  else ({ st with len := 0 }, none)

/-- Driving the generator over the remaining bytes, collecting emissions. -/
def kgRun (k : Nat) (st : KGState) : List Nat → List (Nat × Nat)
  | [] => []
  | b :: rest =>
    match kgStep k st b with
    | (st2, some p) => p :: kgRun k st2 rest
    | (st2, none) => kgRun k st2 rest

/-- All `(forward, reverse-complement)` pairs produced by
`KmerGenerator::new(seq, k)` in emission order. -/
def kmerList (seq : List Nat) (k : Nat) : List (Nat × Nat) :=
  kgRun k ⟨0, 0, 0⟩ seq

/-- Loop body of `KmerGenerator::rev_comp`. -/
def revCompAux : Nat → Nat → Nat → Nat
  | 0, _, r => r
  | n + 1, m, r => revCompAux n (m >>> 2) ((r <<< 2) ||| ((m &&& 3) ^^^ 3))

/-- `KmerGenerator::rev_comp(kmer, ksize)` (`src/kmer/src/kmer.rs`,
lines 41–51). -/
def rev_comp (m k : Nat) : Nat := revCompAux k m 0

/-- Numeric (2-bit-packed, most-significant-first) value of a window of
bytes. -/
def encodeWin (w : List Nat) : Nat := w.foldl (fun a b => a * 4 + encode b) 0

/-- Reverse-complement value of a window of bytes, computed directly:
newest base contributes the most significant (complemented) lane. -/
def rcWin (w : List Nat) : Nat :=
  w.reverse.foldl (fun a b => a * 4 + (3 - encode b)) 0

/-- The window of length `k` starting at byte `i`. -/
def window (seq : List Nat) (i k : Nat) : List Nat := (seq.drop i).take k

/-- The emission, if any, of the window that ends at byte `e`: it is
produced iff the `k`-byte window ending there exists and is entirely
ambiguity-free. -/
def specAt (seq : List Nat) (k e : Nat) : Option (Nat × Nat) :=
  if k ≤ e + 1 ∧ (window seq (e + 1 - k) k).all validByte then
    some (encodeWin (window seq (e + 1 - k) k),
          rcWin (window seq (e + 1 - k) k))
  else none

/-- Reference description of the generator's output: one emission per
window end `e` whose `k`-byte window is entirely ambiguity-free, in base
order. -/
def kmerSpec (seq : List Nat) (k : Nat) : List (Nat × Nat) :=
  (List.range seq.length).filterMap (specAt seq k)

/-- Length of the maximal ambiguity-free suffix. -/
def vsl (l : List Nat) : Nat :=
  l.foldl (fun r b => if validByte b then r + 1 else 0) 0

/-! ### Arithmetic helpers for the 2-bit rolling representation -/

theorem lor_shiftLeft_add {a b n : Nat} (h : b < 2 ^ n) :
    a <<< n ||| b = a * 2 ^ n + b := by
  rw [Nat.shiftLeft_eq, Nat.mul_comm a (2 ^ n), ← Nat.mul_add_lt_is_or h,
    Nat.mul_comm (2 ^ n) a]

theorem xor_three {x : Nat} (h : x < 4) : x ^^^ 3 = 3 - x := by
  interval_cases x <;> decide

theorem and_three (m : Nat) : m &&& 3 = m % 4 := by
  have : (3 : Nat) = 2 ^ 2 - 1 := by decide
  rw [this, Nat.and_pow_two_sub_one_eq_mod]

theorem four_pow (k : Nat) : (4 : Nat) ^ k = 2 ^ (2 * k) := by
  rw [Nat.pow_mul]

theorem and_four_pow_sub_one (x k : Nat) : x &&& (4 ^ k - 1) = x % 4 ^ k := by
  rw [four_pow, Nat.and_pow_two_sub_one_eq_mod]

theorem shiftRight_two (x : Nat) : x >>> 2 = x / 4 := by
  rw [Nat.shiftRight_eq_div_pow]

/-- The rolled forward value: `((f <<< 2) ||| x) &&& (4^k − 1) = (f*4 + x) % 4^k`. -/
theorem roll_fwd (f x k : Nat) (hx : x < 4) :
    ((f <<< 2) ||| x) &&& (4 ^ k - 1) = (f * 4 + x) % 4 ^ k := by
  have h4 : (4 : Nat) = 2 ^ 2 := by decide
  have : f <<< 2 ||| x = f * 4 + x := by
    rw [lor_shiftLeft_add (by omega : x < 2 ^ 2)]; norm_num
  rw [this, and_four_pow_sub_one]

/-- The rolled reverse value: `(r >>> 2) ||| (c <<< (2*(k−1))) = c * 4^(k−1) + r/4`
when `r < 4^k` and `1 ≤ k`. -/
theorem roll_rev (r c k : Nat) (hk : 1 ≤ k) (hr : r < 4 ^ k) :
    (r >>> 2) ||| (c <<< (2 * (k - 1))) = c * 4 ^ (k - 1) + r / 4 := by
  have hlow : r / 4 < 2 ^ (2 * (k - 1)) := by
    rw [Nat.div_lt_iff_lt_mul (by norm_num : (0:Nat) < 4)]
    calc r < 4 ^ k := hr
    _ = 4 ^ (k - 1) * 4 := by
        rw [← Nat.pow_succ]; congr 1; omega
    _ = 2 ^ (2 * (k - 1)) * 4 := by rw [four_pow]
  rw [shiftRight_two, Nat.lor_comm, lor_shiftLeft_add hlow, ← four_pow]

/-! ### Window-value lemmas -/

theorem foldl_base4 (g : Nat → Nat) (l : List Nat) (a : Nat) :
    l.foldl (fun a b => a * 4 + g b) a =
      a * 4 ^ l.length + l.foldl (fun a b => a * 4 + g b) 0 := by
  induction l generalizing a with
  | nil => simp
  | cons b t ih =>
    simp only [List.foldl_cons, List.length_cons]
    rw [ih (a * 4 + g b), ih (0 * 4 + g b)]
    ring

theorem encodeWin_nil : encodeWin [] = 0 := rfl

theorem encodeWin_append_one (w : List Nat) (b : Nat) :
    encodeWin (w ++ [b]) = encodeWin w * 4 + encode b := by
  simp [encodeWin, List.foldl_append]

theorem encodeWin_cons (b : Nat) (w : List Nat) :
    encodeWin (b :: w) = encode b * 4 ^ w.length + encodeWin w := by
  simp only [encodeWin, List.foldl_cons]
  rw [foldl_base4]; ring_nf

theorem encodeWin_lt {w : List Nat} (h : w.all validByte) :
    encodeWin w < 4 ^ w.length := by
  induction w using List.reverseRecOn with
  | nil => simp [encodeWin]
  | append_singleton t b ih =>
    simp only [List.all_append, List.all_cons, List.all_nil, Bool.and_true,
      Bool.and_eq_true] at h
    have hb : encode b < 4 := by
      have := h.2; simpa [validByte] using this
    rw [encodeWin_append_one]
    have h1 := ih h.1
    have h2 : (t ++ [b]).length = t.length + 1 := by simp
    rw [h2, Nat.pow_succ]
    omega

theorem encodeWin_split (w : List Nat) (d : Nat) :
    encodeWin w = encodeWin (w.take d) * 4 ^ (w.length - d) + encodeWin (w.drop d) := by
  conv_lhs => rw [← List.take_append_drop d w]
  simp only [encodeWin, List.foldl_append]
  rw [foldl_base4, List.length_drop]

theorem encodeWin_mod {w : List Nat} (h : w.all validByte) (d : Nat) :
    encodeWin w % 4 ^ (w.length - d) = encodeWin (w.drop d) := by
  rw [encodeWin_split w d, Nat.add_comm, Nat.add_mul_mod_self_right]
  apply Nat.mod_eq_of_lt
  have : (w.drop d).all validByte := by
    rw [List.all_eq_true] at h ⊢
    exact fun b hb => h b (List.mem_of_mem_drop hb)
  have := encodeWin_lt this
  rwa [List.length_drop] at this

theorem rcWin_nil : rcWin [] = 0 := rfl

theorem rcWin_cons (b : Nat) (w : List Nat) :
    rcWin (b :: w) = rcWin w * 4 + (3 - encode b) := by
  simp [rcWin, List.foldl_append]

theorem rcWin_append_one (w : List Nat) (b : Nat) :
    rcWin (w ++ [b]) = (3 - encode b) * 4 ^ w.length + rcWin w := by
  have h : (w ++ [b]).reverse = b :: w.reverse := by simp
  simp only [rcWin, h, List.foldl_cons, Nat.zero_mul, Nat.zero_add]
  rw [foldl_base4, List.length_reverse]

theorem rcWin_lt (w : List Nat) : rcWin w < 4 ^ w.length := by
  induction w with
  | nil => simp [rcWin]
  | cons b t ih =>
    rw [rcWin_cons, List.length_cons]
    have : 3 - encode b ≤ 3 := by omega
    calc rcWin t * 4 + (3 - encode b) < (rcWin t + 1) * 4 := by omega
    _ ≤ 4 ^ t.length * 4 := Nat.mul_le_mul_right 4 (by omega)
    _ = 4 ^ (t.length + 1) := by rw [← Nat.pow_succ]

/-! ### `rev_comp` agrees with the word-level reverse complement -/

theorem revCompAux_acc (k : Nat) : ∀ m r,
    revCompAux k m r = r * 4 ^ k + revCompAux k m 0 := by
  induction k with
  | zero => intro m r; simp [revCompAux]
  | succ k ih =>
    intro m r
    have hc : (m &&& 3) ^^^ 3 < 4 := by
      have h1 : m &&& 3 < 4 := by rw [and_three]; omega
      have : ((m &&& 3) ^^^ 3) < 2 ^ 2 :=
        Nat.xor_lt_two_pow (by omega) (by omega)
      omega
    simp only [revCompAux]
    rw [lor_shiftLeft_add (show (m &&& 3) ^^^ 3 < 2 ^ 2 by omega),
        lor_shiftLeft_add (show (m &&& 3) ^^^ 3 < 2 ^ 2 by omega)]
    rw [ih (m >>> 2) (r * 2 ^ 2 + ((m &&& 3) ^^^ 3)),
        ih (m >>> 2) (0 * 2 ^ 2 + ((m &&& 3) ^^^ 3))]
    have : (4 : Nat) ^ (k + 1) = 2 ^ 2 * 4 ^ k := by
      rw [Nat.pow_succ]; ring_nf
    rw [this]; ring

theorem rev_comp_succ (m k : Nat) :
    rev_comp m (k + 1) = (3 - m % 4) * 4 ^ k + rev_comp (m / 4) k := by
  have h1 : m &&& 3 = m % 4 := and_three m
  have h2 : m % 4 ^^^ 3 = 3 - m % 4 := xor_three (Nat.mod_lt _ (by norm_num))
  simp only [rev_comp, revCompAux]
  rw [lor_shiftLeft_add (show (m &&& 3) ^^^ 3 < 2 ^ 2 by
    rw [h1, h2]; omega)]
  rw [revCompAux_acc, h1, h2, shiftRight_two]
  norm_num

theorem rev_comp_rcWin : ∀ (w : List Nat), w.all validByte →
    rev_comp (encodeWin w) w.length = rcWin w := by
  intro w
  induction w using List.reverseRecOn with
  | nil => intro _; rfl
  | append_singleton t b ih =>
    intro h
    simp only [List.all_append, List.all_cons, List.all_nil, Bool.and_true,
      Bool.and_eq_true] at h
    have hb : encode b < 4 := by have := h.2; simpa [validByte] using this
    rw [encodeWin_append_one, List.length_append, List.length_cons,
      List.length_nil, rev_comp_succ]
    have hm : (encodeWin t * 4 + encode b) % 4 = encode b := by omega
    have hd : (encodeWin t * 4 + encode b) / 4 = encodeWin t := by omega
    rw [hm, hd, ih h.1, rcWin_append_one]

/-! ### Valid-suffix-length lemmas -/

theorem vsl_nil : vsl [] = 0 := rfl

theorem vsl_append_one (l : List Nat) (b : Nat) :
    vsl (l ++ [b]) = if validByte b then vsl l + 1 else 0 := by
  simp [vsl, List.foldl_append]

theorem vsl_le_length (l : List Nat) : vsl l ≤ l.length := by
  induction l using List.reverseRecOn with
  | nil => simp [vsl]
  | append_singleton t b ih =>
    rw [vsl_append_one]
    by_cases hb : validByte b <;> simp [hb] <;> omega

theorem vsl_ge_iff (l : List Nat) (j : Nat) :
    j ≤ vsl l ↔ j ≤ l.length ∧ (l.drop (l.length - j)).all validByte := by
  induction l using List.reverseRecOn generalizing j with
  | nil => simp [vsl]
  | append_singleton t b ih =>
    rw [vsl_append_one]
    match j with
    | 0 => simp
    | j + 1 =>
      by_cases hb : validByte b
      · rw [if_pos hb]
        by_cases hj : j ≤ t.length
        · have hd : (t ++ [b]).drop ((t ++ [b]).length - (j + 1)) =
              t.drop (t.length - j) ++ [b] := by
            have h1 : (t ++ [b]).length - (j + 1) = t.length - j := by
              simp only [List.length_append, List.length_cons, List.length_nil]
              omega
            rw [h1, List.drop_append_of_le_length (by omega)]
          rw [hd]
          simp only [List.all_append, List.all_cons, List.all_nil, Bool.and_true,
            Bool.and_eq_true, List.length_append, List.length_cons, List.length_nil]
          constructor
          · intro h
            exact ⟨by omega, (ih j).mp (by omega) |>.2, hb⟩
          · intro ⟨_, h2, _⟩
            have := (ih j).mpr ⟨hj, h2⟩
            omega
        · constructor
          · intro h
            have := vsl_le_length t; omega
          · intro ⟨h, _⟩
            simp at h; omega
      · rw [if_neg hb]
        constructor
        · omega
        · intro ⟨h1, h2⟩
          exfalso
          have hmem : b ∈ (t ++ [b]).drop ((t ++ [b]).length - (j + 1)) := by
            have h3 : (t ++ [b]).length - (j + 1) ≤ t.length := by
              simp only [List.length_append, List.length_cons, List.length_nil]
              omega
            rw [List.drop_append_of_le_length h3]
            simp
          rw [List.all_eq_true] at h2
          exact hb (h2 b hmem)

/-! ### Invariant relating the generator state to the processed prefix -/

/-- After feeding `pre` to the generator from the initial state: the run
length tracks the valid suffix (capped at `k−1`), and the low/high lanes of
`fval`/`rval` hold the encodings of the last `min (vsl pre) k` bytes. -/
def KGInv (k : Nat) (pre : List Nat) (st : KGState) : Prop :=
  st.len = min (vsl pre) (k - 1) ∧
  st.fval < 4 ^ k ∧
  st.rval < 4 ^ k ∧
  st.fval % 4 ^ min (vsl pre) k =
    encodeWin (pre.drop (pre.length - min (vsl pre) k)) ∧
  st.rval / 4 ^ (k - min (vsl pre) k) =
    rcWin (pre.drop (pre.length - min (vsl pre) k))

/-- The generator's remaining output, described window by window: after
prefix `pre`, each further byte `b` contributes an emission iff the
`k`-window ending at it is entirely valid. -/
def specTail (k : Nat) : List Nat → List Nat → List (Nat × Nat)
  | _, [] => []
  | pre, b :: rest =>
    if k ≤ (pre ++ [b]).length ∧
        ((pre ++ [b]).drop ((pre ++ [b]).length - k)).all validByte then
      (encodeWin ((pre ++ [b]).drop ((pre ++ [b]).length - k)),
       rcWin ((pre ++ [b]).drop ((pre ++ [b]).length - k))) ::
        specTail k (pre ++ [b]) rest
    else specTail k (pre ++ [b]) rest

theorem roll_mod (f x M : Nat) (hx : x < 4) (hM : 0 < M) :
    (f * 4 + x) % (M * 4) = (f % M) * 4 + x := by
  have h1 : f * 4 % (M * 4) = (f % M) * 4 := Nat.mul_mod_mul_right 4 f M
  have h2 : x % (M * 4) = x := Nat.mod_eq_of_lt (by nlinarith)
  have h3 : f % M < M := Nat.mod_lt _ hM
  rw [Nat.add_mod, h1, h2, Nat.mod_eq_of_lt (by nlinarith)]

theorem div4_lt {r k : Nat} (hk : 1 ≤ k) (hr : r < 4 ^ k) : r / 4 < 4 ^ (k - 1) := by
  rw [Nat.div_lt_iff_lt_mul (by norm_num : (0:Nat) < 4)]
  have : (4:Nat) ^ (k - 1) * 4 = 4 ^ k := by
    rw [← Nat.pow_succ]; congr 1; omega
  omega

theorem kgRun_eq_specTail (k : Nat) (hk : 1 ≤ k) :
    ∀ (rest pre : List Nat) (st : KGState), KGInv k pre st →
      kgRun k st rest = specTail k pre rest := by
  intro rest
  induction rest with
  | nil => intro pre st _; rfl
  | cons b rest ih =>
    intro pre st hInv
    obtain ⟨hlen, hfb, hrb, hfm, hrd⟩ := hInv
    have hrpre : vsl pre ≤ pre.length := vsl_le_length pre
    have hvl : vsl (pre ++ [b]) = if validByte b then vsl pre + 1 else 0 :=
      vsl_append_one pre b
    have hlapp : (pre ++ [b]).length = pre.length + 1 := by simp
    by_cases hb : validByte b
    · have hx : encode b < 4 := by
        simpa [validByte] using hb
      have hvl2 : vsl (pre ++ [b]) = vsl pre + 1 := by rw [hvl, if_pos hb]
      -- common facts about the rolled values
      have hF : ((st.fval <<< 2) ||| encode b) &&& (4 ^ k - 1) =
          (st.fval * 4 + encode b) % 4 ^ k := roll_fwd _ _ _ hx
      have hR : (st.rval >>> 2) ||| ((encode b ^^^ 3) <<< (2 * (k - 1))) =
          (3 - encode b) * 4 ^ (k - 1) + st.rval / 4 := by
        rw [xor_three hx]
        exact roll_rev _ _ _ hk hrb
      by_cases hemit : st.len + 1 = k
      · -- emission step
        have hr1 : k - 1 ≤ vsl pre := by omega
        have hkvl : k ≤ vsl (pre ++ [b]) := by omega
        have hkl : k ≤ (pre ++ [b]).length := by
          have := vsl_le_length (pre ++ [b]); omega
        have hcond := (vsl_ge_iff (pre ++ [b]) k).mp hkvl
        have hwin : (pre ++ [b]).drop ((pre ++ [b]).length - k) =
            pre.drop (pre.length - (k - 1)) ++ [b] := by
          have h1 : (pre ++ [b]).length - k = pre.length - (k - 1) := by
            rw [hlapp]; omega
          rw [h1, List.drop_append_of_le_length (by omega)]
        have hvalidD := ((vsl_ge_iff pre (k - 1)).mp hr1).2
        have hlenD : (pre.drop (pre.length - (k - 1))).length = k - 1 := by
          rw [List.length_drop]; omega
        -- forward value
        have hfmod : st.fval % 4 ^ (k - 1) =
            encodeWin (pre.drop (pre.length - (k - 1))) := by
          set j := min (vsl pre) k with hj
          have hj1 : k - 1 ≤ j := by omega
          have hjpre : j ≤ pre.length := by omega
          have hvalidJ := ((vsl_ge_iff pre j).mp (by omega)).2
          have h1 : st.fval % 4 ^ (k - 1) = (st.fval % 4 ^ j) % 4 ^ (k - 1) :=
            (Nat.mod_mod_of_dvd _ (pow_dvd_pow 4 hj1)).symm
          have hlenJ : (pre.drop (pre.length - j)).length = j := by
            rw [List.length_drop]; omega
          have h2 : encodeWin (pre.drop (pre.length - j)) % 4 ^ (k - 1) =
              encodeWin ((pre.drop (pre.length - j)).drop (j - (k - 1))) := by
            have := encodeWin_mod hvalidJ (j - (k - 1))
            rw [hlenJ] at this
            have hjj : j - (j - (k - 1)) = k - 1 := by omega
            rw [hjj] at this
            exact this
          rw [h1, hfm, h2, List.drop_drop]
          congr 2
          omega
        have hFval : (st.fval * 4 + encode b) % 4 ^ k =
            encodeWin ((pre ++ [b]).drop ((pre ++ [b]).length - k)) := by
          rw [hwin, encodeWin_append_one, ← hfmod]
          have h4k : (4:Nat) ^ k = 4 ^ (k - 1) * 4 := by
            rw [← Nat.pow_succ]; congr 1; omega
          rw [h4k, roll_mod _ _ _ hx (by positivity)]
        -- reverse value
        have hrdiv : st.rval / 4 = rcWin (pre.drop (pre.length - (k - 1))) := by
          rcases Nat.lt_or_ge (vsl pre) k with hlt | hge
          · -- j = vsl pre = k − 1
            have hj : min (vsl pre) k = k - 1 := by omega
            rw [hj] at hrd
            have : k - (k - 1) = 1 := by omega
            rw [this, pow_one] at hrd
            exact hrd
          · -- j = k : rval is the rc of the last k bytes; dividing by 4
            -- drops the oldest lane
            have hj : min (vsl pre) k = k := by omega
            rw [hj, Nat.sub_self, pow_zero, Nat.div_one] at hrd
            have hkpre : k ≤ pre.length := by omega
            set lastK := pre.drop (pre.length - k) with hlk
            have hlenK : lastK.length = k := by
              rw [hlk, List.length_drop]; omega
            have hne : lastK ≠ [] := by
              intro h; rw [h] at hlenK; simp at hlenK; omega
            have htail : lastK.tail = pre.drop (pre.length - (k - 1)) := by
              rw [hlk, List.tail_drop]
              congr 1
              omega
            have hcons : lastK.head hne :: lastK.tail = lastK :=
              List.head_cons_tail lastK hne
            rw [hrd, ← hcons, rcWin_cons, htail]
            omega
        have hRval : (3 - encode b) * 4 ^ (k - 1) + st.rval / 4 =
            rcWin ((pre ++ [b]).drop ((pre ++ [b]).length - k)) := by
          rw [hwin, rcWin_append_one, hlenD, hrdiv]
        -- step the program and the spec
        simp only [kgRun, kgStep, if_pos hx, if_pos hemit, specTail,
          if_pos (And.intro hkl hcond.2)]
        rw [hF, hR, hFval, hRval]
        refine congrArg _ (ih (pre ++ [b]) _ ?_)
        have hlenW : ((pre ++ [b]).drop ((pre ++ [b]).length - k)).length = k := by
          rw [List.length_drop]; omega
        have hwlt : encodeWin ((pre ++ [b]).drop ((pre ++ [b]).length - k)) < 4 ^ k := by
          have := encodeWin_lt hcond.2
          rwa [hlenW] at this
        have hrlt : rcWin ((pre ++ [b]).drop ((pre ++ [b]).length - k)) < 4 ^ k := by
          have := rcWin_lt ((pre ++ [b]).drop ((pre ++ [b]).length - k))
          rwa [hlenW] at this
        have hjk : min (vsl (pre ++ [b])) k = k := by omega
        refine ⟨?_, hwlt, hrlt, ?_, ?_⟩
        · show k - 1 = min (vsl (pre ++ [b])) (k - 1)
          omega
        · dsimp only
          rw [hjk, Nat.mod_eq_of_lt hwlt]
        · dsimp only
          rw [hjk, Nat.sub_self, pow_zero, Nat.div_one]
      · -- valid byte, no emission: the valid run is still shorter than k
        have hrk : vsl pre < k - 1 := by omega
        have hnc : ¬(k ≤ (pre ++ [b]).length ∧
            ((pre ++ [b]).drop ((pre ++ [b]).length - k)).all validByte) := by
          intro hcond
          have := (vsl_ge_iff (pre ++ [b]) k).mpr hcond
          omega
        simp only [kgRun, kgStep, if_pos hx, if_neg hemit, specTail, if_neg hnc]
        apply ih
        set r := vsl pre with hr
        have hwin : (pre ++ [b]).drop ((pre ++ [b]).length - (r + 1)) =
            pre.drop (pre.length - r) ++ [b] := by
          have h1 : (pre ++ [b]).length - (r + 1) = pre.length - r := by
            rw [hlapp]; omega
          rw [h1, List.drop_append_of_le_length (by omega)]
        have hlenR : (pre.drop (pre.length - r)).length = r := by
          rw [List.length_drop]; omega
        have hjold : min r k = r := by omega
        rw [hjold] at hfm hrd
        have hjnew : min (vsl (pre ++ [b])) k = r + 1 := by omega
        refine ⟨?_, ?_, ?_, ?_, ?_⟩
        · show st.len + 1 = min (vsl (pre ++ [b])) (k - 1)
          omega
        · show ((st.fval <<< 2) ||| encode b) &&& (4 ^ k - 1) < 4 ^ k
          rw [hF]
          exact Nat.mod_lt _ (by positivity)
        · show (st.rval >>> 2) ||| ((encode b ^^^ 3) <<< (2 * (k - 1))) < 4 ^ k
          rw [hR]
          have h1 : 3 - encode b ≤ 3 := by omega
          have h2 : st.rval / 4 < 4 ^ (k - 1) := div4_lt hk hrb
          have h3 : (4:Nat) ^ k = 4 ^ (k - 1) * 4 := by
            rw [← Nat.pow_succ]; congr 1; omega
          nlinarith [pow_pos (show (0:Nat) < 4 by norm_num) (k - 1)]
        · rw [hjnew, hF, hwin, encodeWin_append_one, ← hfm]
          have h1 : ((st.fval * 4 + encode b) % 4 ^ k) % 4 ^ (r + 1) =
              (st.fval * 4 + encode b) % 4 ^ (r + 1) :=
            Nat.mod_mod_of_dvd _ (pow_dvd_pow 4 (by omega))
          have h2 : (4:Nat) ^ (r + 1) = 4 ^ r * 4 := by rw [Nat.pow_succ]
          rw [h1, h2, roll_mod _ _ _ hx (by positivity)]
        · rw [hjnew, hR, hwin, rcWin_append_one, hlenR]
          have he : k - (r + 1) = k - 1 - r := by omega
          have hsplit : (3 - encode b) * 4 ^ (k - 1) =
              4 ^ (k - 1 - r) * ((3 - encode b) * 4 ^ r) := by
            have : (4:Nat) ^ (k - 1) = 4 ^ (k - 1 - r) * 4 ^ r := by
              rw [← pow_add]; congr 1; omega
            rw [this]; ring
          have hdd : st.rval / 4 / 4 ^ (k - 1 - r) = st.rval / 4 ^ (k - r) := by
            rw [Nat.div_div_eq_div_mul]
            congr 1
            have : (4:Nat) ^ (k - r) = 4 * 4 ^ (k - 1 - r) := by
              rw [← Nat.pow_succ']; congr 1; omega
            rw [this]
          rw [he, hsplit, Nat.mul_add_div (by positivity), hdd, hrd]
    · -- ambiguous byte: run resets, no emission
      have hx4 : ¬ encode b < 4 := by
        simpa [validByte] using hb
      have hnc : ¬(k ≤ (pre ++ [b]).length ∧
          ((pre ++ [b]).drop ((pre ++ [b]).length - k)).all validByte) := by
        intro ⟨hkl, hall⟩
        have hmem : b ∈ (pre ++ [b]).drop ((pre ++ [b]).length - k) := by
          have h3 : (pre ++ [b]).length - k ≤ pre.length := by
            rw [hlapp]; omega
          rw [List.drop_append_of_le_length h3]
          simp
        rw [List.all_eq_true] at hall
        exact hb (hall b hmem)
      simp only [kgRun, kgStep, if_neg hx4, specTail, if_neg hnc]
      apply ih
      have hvl0 : vsl (pre ++ [b]) = 0 := by rw [hvl, if_neg hb]
      refine ⟨?_, hfb, hrb, ?_, ?_⟩
      · show (0 : Nat) = min (vsl (pre ++ [b])) (k - 1)
        omega
      · rw [hvl0]
        simp [List.drop_length, encodeWin_nil, Nat.mod_one]
      · rw [hvl0]
        simp only [Nat.zero_min, Nat.sub_zero, List.drop_length, rcWin_nil]
        exact Nat.div_eq_of_lt hrb

theorem specTail_eq_filterMap (k : Nat) :
    ∀ (rest pre : List Nat),
      specTail k pre rest =
        (List.range rest.length).filterMap
          (fun t => specAt (pre ++ rest) k (pre.length + t)) := by
  intro rest
  induction rest with
  | nil => intro pre; simp [specTail]
  | cons b rest ih =>
    intro pre
    have hfull : pre ++ b :: rest = (pre ++ [b]) ++ rest := by simp
    have hlapp : (pre ++ [b]).length = pre.length + 1 := by simp
    have hwineq : k ≤ pre.length + 1 →
        window (pre ++ b :: rest) (pre.length + 1 - k) k =
          (pre ++ [b]).drop ((pre ++ [b]).length - k) := by
      intro hkd
      rw [hfull, window, hlapp,
        List.drop_append_of_le_length (by rw [hlapp]; omega)]
      have hlen : ((pre ++ [b]).drop (pre.length + 1 - k)).length = k := by
        rw [List.length_drop, hlapp]; omega
      rw [List.take_append_eq_append_take, hlen, Nat.sub_self, List.take_zero,
        List.append_nil, List.take_of_length_le (le_of_eq hlen)]
    have hfun : ∀ t, specAt (pre ++ b :: rest) k (pre.length + (t + 1)) =
        specAt ((pre ++ [b]) ++ rest) k ((pre ++ [b]).length + t) := by
      intro t
      have h2 : pre.length + (t + 1) = (pre ++ [b]).length + t := by
        rw [hlapp]; omega
      rw [hfull, h2]
    rw [List.length_cons, List.range_succ_eq_map, List.filterMap_cons,
      List.filterMap_map]
    have htail : (List.range rest.length).filterMap
          ((fun t => specAt (pre ++ b :: rest) k (pre.length + t)) ∘ Nat.succ) =
        specTail k (pre ++ [b]) rest := by
      rw [ih (pre ++ [b])]
      apply List.filterMap_congr
      intro t _
      simp only [Function.comp_apply]
      exact hfun t
    by_cases hcond : k ≤ (pre ++ [b]).length ∧
        ((pre ++ [b]).drop ((pre ++ [b]).length - k)).all validByte
    · have hk1 : k ≤ pre.length + 1 := by rw [hlapp] at hcond; exact hcond.1
      have hAt : specAt (pre ++ b :: rest) k (pre.length + 0) =
          some (encodeWin ((pre ++ [b]).drop ((pre ++ [b]).length - k)),
                rcWin ((pre ++ [b]).drop ((pre ++ [b]).length - k))) := by
        simp only [specAt, Nat.add_zero]
        rw [hwineq hk1, if_pos ⟨hk1, hcond.2⟩]
      rw [hAt]
      simp only [specTail, if_pos hcond]
      rw [htail]
    · have hAt : specAt (pre ++ b :: rest) k (pre.length + 0) = none := by
        simp only [specAt, Nat.add_zero]
        rw [if_neg]
        intro ⟨h1, h2⟩
        apply hcond
        refine ⟨by rw [hlapp]; omega, ?_⟩
        rw [hwineq h1] at h2
        exact h2
      rw [hAt]
      simp only [specTail, if_neg hcond]
      rw [htail]

/-- **Master characterisation** of `KmerGenerator`: the emitted pairs are
exactly, in base order, the `(forward, reverse-complement)` values of the
`k`-windows that are entirely ambiguity-free. -/
theorem kmerList_eq_kmerSpec (seq : List Nat) (k : Nat) (hk : 1 ≤ k) :
    kmerList seq k = kmerSpec seq k := by
  have hinit : KGInv k [] ⟨0, 0, 0⟩ := by
    refine ⟨?_, ?_, ?_, ?_, ?_⟩ <;>
      simp [vsl_nil, encodeWin_nil, rcWin_nil, Nat.mod_one]
  have h1 : kmerList seq k = specTail k [] seq :=
    kgRun_eq_specTail k hk seq [] ⟨0, 0, 0⟩ hinit
  rw [h1, specTail_eq_filterMap k seq []]
  simp only [List.nil_append, List.length_nil, Nat.zero_add]
  rfl

/-! ### Window-indexed corollaries of the master characterisation -/

theorem filterMap_range_shift {α : Type} (k : Nat) (hk : 1 ≤ k)
    (h : Nat → Option α) :
    ∀ L : Nat,
      (List.range L).filterMap
          (fun e => if k ≤ e + 1 then h (e + 1 - k) else none) =
        (List.range (L + 1 - k)).filterMap h := by
  intro L
  induction L with
  | zero =>
    have h0 : 0 + 1 - k = 0 := by omega
    rw [h0]
    rfl
  | succ L ih =>
    rw [List.range_succ, List.filterMap_append, ih]
    by_cases hkL : k ≤ L + 1
    · have h1 : L + 1 + 1 - k = (L + 1 - k) + 1 := by omega
      rw [h1, List.range_succ, List.filterMap_append]
      simp only [List.filterMap_cons, List.filterMap_nil, if_pos hkL]
    · have h1 : L + 1 + 1 - k = L + 1 - k := by omega
      rw [h1]
      simp only [List.filterMap_cons, List.filterMap_nil, if_neg hkL,
        List.append_nil]

/-- The generator's output, reindexed by window start: one emission per
ambiguity-free window, in window order. -/
theorem kmerList_windows (seq : List Nat) (k : Nat) (hk : 1 ≤ k) :
    kmerList seq k =
      (List.range (seq.length + 1 - k)).filterMap (fun s =>
        if (window seq s k).all validByte then
          some (encodeWin (window seq s k), rcWin (window seq s k))
        else none) := by
  rw [kmerList_eq_kmerSpec seq k hk, kmerSpec]
  rw [← filterMap_range_shift k hk _ seq.length]
  apply List.filterMap_congr
  intro e _
  simp only [specAt]
  by_cases h1 : k ≤ e + 1
  · by_cases h2 : (window seq (e + 1 - k) k).all validByte
    · rw [if_pos ⟨h1, h2⟩, if_pos h1, if_pos h2]
    · rw [if_neg (fun hc => h2 hc.2), if_pos h1, if_neg h2]
  · rw [if_neg (fun hc : _ ∧ _ => h1 hc.1), if_neg h1]

theorem window_length (seq : List Nat) (s k : Nat) (h : s + k ≤ seq.length) :
    (window seq s k).length = k := by
  rw [window, List.length_take, List.length_drop]
  omega

theorem window_getElem (seq : List Nat) (s k j : Nat)
    (hj : j < (window seq s k).length) (hS : s + j < seq.length) :
    (window seq s k)[j] = seq[s + j] := by
  simp only [window] at hj ⊢
  rw [List.getElem_take, List.getElem_drop]

theorem window_eq_map_getD (seq : List Nat) (s k : Nat) (h : s + k ≤ seq.length) :
    window seq s k = (List.range k).map (fun j => seq.getD (s + j) 0) := by
  apply List.ext_getElem
  · rw [window_length seq s k h, List.length_map, List.length_range]
  · intro j hj1 hj2
    have hjk : j < k := by
      have := hj1; rw [window_length seq s k h] at this; exact this
    have hS : s + j < seq.length := by omega
    rw [window_getElem seq s k j hj1 hS, List.getElem_map, List.getElem_range,
      List.getD_eq_getElem seq 0 hS]

theorem window_all_iff (seq : List Nat) (s k : Nat) (h : s + k ≤ seq.length) :
    (window seq s k).all validByte = true ↔
      ∀ i, s ≤ i → i < s + k → validByte (seq.getD i 0) := by
  rw [window_eq_map_getD seq s k h, List.all_map, List.all_eq_true]
  constructor
  · intro hall i h1 h2
    have := hall (i - s) (List.mem_range.mpr (by omega))
    simpa [Function.comp, Nat.add_sub_cancel' h1] using this
  · intro hfa j hj
    have hjk := List.mem_range.mp hj
    simpa [Function.comp] using hfa (s + j) (by omega) (by omega)

/-! ### Claim C6: the base-encoding table -/

/-- The ten ASCII bytes `A C G T U a c g t u`. -/
def asciiBases : List Nat := [65, 67, 71, 84, 85, 97, 99, 103, 116, 117]

/-- **C6, counterexample.** The claim says every byte other than
`ACGTU/acgtu` encodes to 4 (ambiguous). It is false: the table (copied
from minimap2) also maps the raw byte values 0, 1, 2, 3 to the codes
0, 1, 2, 3, so e.g. byte `0` encodes to `0`, not `4`. -/
theorem c6_counterexample :
    ¬ (∀ b, b < 256 → b ∉ asciiBases → encode b = 4) := by
  intro h
  have h0 := h 0 (by norm_num) (by decide)
  revert h0
  decide

theorem encode_ge_256 {b : Nat} (hb : 256 ≤ b) : encode b = 4 := by
  have hlen : SEQ_NT4_TABLE.length = 256 := by rfl
  unfold encode
  rw [List.getD_eq_default]
  omega

theorem encode_below_256 :
    ∀ b, b < 256 → b ∉ asciiBases → ¬ b < 4 → encode b = 4 := by decide

/-- **C6, amended.** The table maps `A/a → 0`, `C/c → 1`, `G/g → 2`,
`T/t → 3`, `U/u → 3`, and — in addition to what the claim states — the raw
byte values 0, 1, 2, 3 to themselves; every remaining byte maps to 4.
Consequently a byte advances a k-mer run iff it is one of `ACGTU/acgtu`
or a raw byte 0–3, and any other byte resets the run and emits nothing. -/
theorem c6_encode_table :
    (encode 65 = 0 ∧ encode 97 = 0 ∧ encode 67 = 1 ∧ encode 99 = 1 ∧
     encode 71 = 2 ∧ encode 103 = 2 ∧ encode 84 = 3 ∧ encode 116 = 3 ∧
     encode 85 = 3 ∧ encode 117 = 3) ∧
    (encode 0 = 0 ∧ encode 1 = 1 ∧ encode 2 = 2 ∧ encode 3 = 3) ∧
    (∀ b, b ∉ asciiBases → ¬ b < 4 → encode b = 4) ∧
    (∀ b, validByte b = true ↔ (b ∈ asciiBases ∨ b < 4)) ∧
    (∀ k st b, validByte b = true →
      ((kgStep k st b).1.len = if st.len + 1 = k then k - 1 else st.len + 1)) ∧
    (∀ k st b, ¬ validByte b = true →
      (kgStep k st b).1.len = 0 ∧ (kgStep k st b).2 = none) := by
  refine ⟨by decide, by decide, ?_, ?_, ?_, ?_⟩
  · intro b h1 h2
    by_cases hb : b < 256
    · exact encode_below_256 b hb h1 h2
    · exact encode_ge_256 (by omega)
  · intro b
    by_cases hb : b < 256
    · revert hb
      revert b
      decide
    · have h4 : encode b = 4 := encode_ge_256 (by omega)
      have hmem : b ∉ asciiBases := by
        intro hc
        have : ∀ x ∈ asciiBases, x < 256 := by decide
        have := this b hc
        omega
      constructor
      · intro hv
        rw [validByte, h4] at hv
        simp at hv
      · intro hc
        rcases hc with hc | hc
        · exact absurd hc hmem
        · omega
  · intro k st b hv
    have hx : encode b < 4 := by simpa [validByte] using hv
    by_cases hl : st.len + 1 = k
    · simp [kgStep, if_pos hx, if_pos hl]
    · simp [kgStep, if_pos hx, if_neg hl]
  · intro k st b hv
    have hx : ¬ encode b < 4 := by simpa [validByte] using hv
    exact ⟨by simp [kgStep, if_neg hx], by simp [kgStep, if_neg hx]⟩

/-- Witness for `c6_encode_table` at concrete bytes: byte `78` (`N`) does
not advance a run, byte `65` (`A`) does. -/
theorem c6_encode_table_witness :
    encode 78 = 4 ∧ (validByte 65 = true ↔ (65 ∈ asciiBases ∨ 65 < 4)) ∧
    (kgStep 2 ⟨0, 0, 0⟩ 78).1.len = 0 := by
  refine ⟨c6_encode_table.2.2.1 78 (by decide) (by decide),
    c6_encode_table.2.2.2.1 65,
    (c6_encode_table.2.2.2.2.2 2 ⟨0, 0, 0⟩ 78 (by decide)).1⟩

/-! ### Claim C2: iterator exactness -/

/-- **C2, counterexample.** On `ACNGTT` with `k = 2` (one ambiguous base at
position 2), the claim predicts `L−k+1 − (k−1) = 4` emitted pairs
(suppressing only the next `k−1 = 1` k-mer); the generator emits 3 pairs —
both windows overlapping position 2 are suppressed. -/
theorem c2_counterexample :
    (kmerList [65, 67, 78, 71, 84, 84] 2).length = 3 ∧
    (∀ i, i < 6 → (¬ validByte ([65, 67, 78, 71, 84, 84].getD i 0) ↔ i = 2)) ∧
    ((6 : Nat) - 2 + 1) - (2 - 1) = 4 ∧ (3 : Nat) ≠ 4 := by
  refine ⟨by decide, by decide, by norm_num, by norm_num⟩

/-- **C2, amended.** (i) A sequence with no ambiguous bytes yields one
`(forward, reverse-complement)` pair per window, in base order — hence
exactly `L−k+1` pairs; (ii) with exactly one ambiguous byte at position
`p`, the output is exactly the windows **not overlapping** `p`, in base
order (an interior ambiguity suppresses `k` windows, not `k−1`). -/
theorem c2_iterator_exactness :
    (∀ (seq : List Nat) (k : Nat), 1 ≤ k → k ≤ 32 →
      (∀ b ∈ seq, validByte b) →
      kmerList seq k =
        (List.range (seq.length + 1 - k)).map (fun s =>
          (encodeWin (window seq s k), rcWin (window seq s k)))) ∧
    (∀ (seq : List Nat) (k p : Nat), 1 ≤ k → k ≤ 32 →
      (∀ i, i < seq.length → (¬ validByte (seq.getD i 0) ↔ i = p)) →
      kmerList seq k =
        (List.range (seq.length + 1 - k)).filterMap (fun s =>
          if p < s ∨ s + k ≤ p then
            some (encodeWin (window seq s k), rcWin (window seq s k))
          else none)) := by
  constructor
  · intro seq k hk _ hvalid
    rw [kmerList_windows seq k hk, ← List.filterMap_eq_map]
    apply List.filterMap_congr
    intro s _
    have hall : (window seq s k).all validByte = true := by
      rw [List.all_eq_true]
      intro b hb
      exact hvalid b (List.mem_of_mem_drop (List.mem_of_mem_take hb))
    rw [if_pos hall]
    rfl
  · intro seq k p hk _ hp
    rw [kmerList_windows seq k hk]
    apply List.filterMap_congr
    intro s hs
    have hsk : s + k ≤ seq.length := by
      have := List.mem_range.mp hs
      omega
    have hiff := window_all_iff seq s k hsk
    by_cases hov : p < s ∨ s + k ≤ p
    · rw [if_pos hov, if_pos]
      rw [hiff]
      intro i h1 h2
      by_contra hvi
      have := (hp i (by omega)).mp hvi
      omega
    · rw [if_neg hov, if_neg]
      rw [hiff]
      intro hfa
      have hpL : p < seq.length := by omega
      have := hfa p (by omega) (by omega)
      have := (hp p hpL).mpr rfl
      exact this ‹validByte (seq.getD p 0) = true›

/-- Witness for `c2_iterator_exactness`: part (i) on `ACGT`, `k = 2`
(3 pairs) and part (ii) on `ACNGTT`, `k = 2`, `p = 2`. -/
theorem c2_iterator_exactness_witness :
    (kmerList [65, 67, 71, 84] 2 =
      (List.range ([65, 67, 71, 84].length + 1 - 2)).map (fun s =>
        (encodeWin (window [65, 67, 71, 84] s 2),
         rcWin (window [65, 67, 71, 84] s 2)))) ∧
    (kmerList [65, 67, 78, 71, 84, 84] 2 =
      (List.range ([65, 67, 78, 71, 84, 84].length + 1 - 2)).filterMap (fun s =>
        if 2 < s ∨ s + 2 ≤ 2 then
          some (encodeWin (window [65, 67, 78, 71, 84, 84] s 2),
                rcWin (window [65, 67, 78, 71, 84, 84] s 2))
        else none)) :=
  ⟨c2_iterator_exactness.1 [65, 67, 71, 84] 2 (by norm_num) (by norm_num)
      (by decide),
   c2_iterator_exactness.2 [65, 67, 78, 71, 84, 84] 2 2 (by norm_num)
      (by norm_num) (by decide)⟩

/-! ### Decoding and byte-level complement -/

/-- A representative ASCII byte for each 2-bit code. -/
def byteOfCode : Nat → Nat
  | 0 => 65
  | 1 => 67
  | 2 => 71
  | _ => 84

/-- The `k`-byte ASCII word whose encoding is `m` (most significant lane
first). -/
def decodeWin : Nat → Nat → List Nat
  | 0, _ => []
  | k + 1, m => decodeWin k (m / 4) ++ [byteOfCode (m % 4)]

/-- Complement of a byte: valid bases map to the base with complementary
code, anything else to `N`. -/
def compByte (b : Nat) : Nat :=
  if encode b < 4 then byteOfCode (3 - encode b) else 78

/-- Reverse complement of a byte sequence (ambiguous bytes become `N`). -/
def rcSeq (s : List Nat) : List Nat := (s.map compByte).reverse

theorem encode_byteOfCode {c : Nat} (hc : c < 4) : encode (byteOfCode c) = c := by
  interval_cases c <;> decide

theorem byteOfCode_valid {c : Nat} (hc : c < 4) : validByte (byteOfCode c) = true := by
  interval_cases c <;> decide

theorem decodeWin_length (k : Nat) : ∀ m, (decodeWin k m).length = k := by
  induction k with
  | zero => intro m; rfl
  | succ k ih => intro m; simp [decodeWin, ih]

theorem decodeWin_valid (k : Nat) : ∀ m, (decodeWin k m).all validByte = true := by
  induction k with
  | zero => intro m; rfl
  | succ k ih =>
    intro m
    simp only [decodeWin, List.all_append, List.all_cons, List.all_nil,
      Bool.and_true, Bool.and_eq_true]
    exact ⟨ih (m / 4), byteOfCode_valid (Nat.mod_lt _ (by norm_num))⟩

theorem encodeWin_decodeWin (k : Nat) : ∀ m, m < 4 ^ k →
    encodeWin (decodeWin k m) = m := by
  induction k with
  | zero =>
    intro m hm
    simp only [pow_zero, Nat.lt_one_iff] at hm
    simp [hm, decodeWin, encodeWin_nil]
  | succ k ih =>
    intro m hm
    have hm4 : m / 4 < 4 ^ k := by
      rw [Nat.div_lt_iff_lt_mul (by norm_num : (0:Nat) < 4)]
      rw [Nat.pow_succ] at hm
      omega
    simp only [decodeWin, encodeWin_append_one,
      encode_byteOfCode (Nat.mod_lt m (by norm_num : (0:Nat) < 4)), ih _ hm4]
    omega

theorem encode_compByte {b : Nat} (hb : validByte b = true) :
    encode (compByte b) = 3 - encode b := by
  have hx : encode b < 4 := by simpa [validByte] using hb
  rw [compByte, if_pos hx]
  exact encode_byteOfCode (by omega)

theorem compByte_valid {b : Nat} (hb : validByte b = true) :
    validByte (compByte b) = true := by
  have hx : encode b < 4 := by simpa [validByte] using hb
  rw [compByte, if_pos hx]
  exact byteOfCode_valid (by omega)

theorem encodeWin_congr {w w' : List Nat} (hlen : w.length = w'.length)
    (h : ∀ i, (hi : i < w.length) → (hi' : i < w'.length) →
      encode (w[i]) = encode (w'[i])) :
    encodeWin w = encodeWin w' := by
  induction w generalizing w' with
  | nil =>
    have : w' = [] := by
      cases w' with
      | nil => rfl
      | cons a t => simp at hlen
    rw [this]
  | cons b t ih =>
    cases w' with
    | nil => simp at hlen
    | cons b' t' =>
      simp only [List.length_cons, Nat.add_right_cancel_iff] at hlen
      rw [encodeWin_cons, encodeWin_cons, hlen]
      have h0 := h 0 (by simp) (by simp)
      simp only [List.getElem_cons_zero] at h0
      rw [h0, ih hlen]
      intro i hi hi'
      have := h (i + 1) (by simpa using Nat.succ_lt_succ hi)
        (by simpa using Nat.succ_lt_succ hi')
      simpa using this

theorem rcWin_eq_encodeWin_comp {w : List Nat} (h : w.all validByte = true) :
    rcWin w = encodeWin ((w.map compByte).reverse) := by
  induction w with
  | nil => rfl
  | cons b t ih =>
    simp only [List.all_cons, Bool.and_eq_true] at h
    simp only [List.map_cons, List.reverse_cons]
    rw [rcWin_cons, encodeWin_append_one, ih h.2, encode_compByte h.1]

theorem comp_valid_all {w : List Nat} (h : w.all validByte = true) :
    ((w.map compByte).reverse).all validByte = true := by
  rw [List.all_eq_true] at h ⊢
  intro b hb
  rw [List.mem_reverse, List.mem_map] at hb
  obtain ⟨a, ha, rfl⟩ := hb
  exact compByte_valid (h a ha)

/-- `rev_comp` is an involution on `k`-lane values. -/
theorem rev_comp_involution (k : Nat) (m : Nat) (hm : m < 4 ^ k) :
    rev_comp (rev_comp m k) k = m := by
  set w := decodeWin k m with hw
  have hwl : w.length = k := decodeWin_length k m
  have hwv : w.all validByte = true := decodeWin_valid k m
  have hew : encodeWin w = m := encodeWin_decodeWin k m hm
  have h1 : rev_comp m k = rcWin w := by
    rw [← hew, ← hwl]
    exact rev_comp_rcWin w hwv
  set w' := (w.map compByte).reverse with hw'
  have hw'l : w'.length = k := by
    rw [hw', List.length_reverse, List.length_map, hwl]
  have hw'v : w'.all validByte = true := comp_valid_all hwv
  have h2 : rcWin w = encodeWin w' := rcWin_eq_encodeWin_comp hwv
  have h3 : rev_comp (encodeWin w') k = rcWin w' := by
    rw [← hw'l]
    exact rev_comp_rcWin w' hw'v
  have h4 : rcWin w' = encodeWin ((w'.map compByte).reverse) :=
    rcWin_eq_encodeWin_comp hw'v
  have h5 : (w'.map compByte).reverse = w.map (fun b => compByte (compByte b)) := by
    rw [hw', List.map_reverse, List.reverse_reverse, List.map_map]
    rfl
  have h6 : encodeWin (w.map (fun b => compByte (compByte b))) = encodeWin w := by
    apply encodeWin_congr
    · simp
    · intro i hi hi'
      rw [List.getElem_map]
      have hbv : validByte (w[i]) = true := by
        rw [List.all_eq_true] at hwv
        exact hwv _ (List.getElem_mem _)
      have he1 := encode_compByte (compByte_valid hbv)
      have he2 := encode_compByte hbv
      have hlt : encode (w[i]) < 4 := by
        simpa [validByte] using hbv
      rw [he1, he2]
      omega
  rw [h1, h2, h3, h4, h5, h6, hew]

theorem rev_comp_lt (k : Nat) : ∀ m, rev_comp m k < 4 ^ k := by
  induction k with
  | zero => intro m; simp [rev_comp, revCompAux]
  | succ k ih =>
    intro m
    rw [rev_comp_succ]
    have h1 := ih (m / 4)
    have h2 : 3 - m % 4 ≤ 3 := by omega
    have h3 : (4:Nat) ^ (k + 1) = 4 ^ k * 4 := by rw [Nat.pow_succ]
    nlinarith [pow_pos (show (0:Nat) < 4 by norm_num) k]

/-! ### Claim C7: the canonical index (`KmerGenerator::kmer_pos_maps`) -/

/-- The set of canonical k-mers `min(m, rev_comp m)` over all `m < 4^k`
(the `HashSet` of `kmer_pos_maps`). -/
def min_mer_finset (k : Nat) : Finset Nat :=
  (Finset.range (4 ^ k)).image (fun m => min m (rev_comp m k))

/-- The sorted vector of canonical k-mers (`min_mer_vec` after `sort`). -/
def min_mer_vec (k : Nat) : List Nat := (min_mer_finset k).sort (· ≤ ·)

/-- The number of distinct canonical k-mers (`count`). -/
def kmer_count (k : Nat) : Nat := (min_mer_vec k).length

/-- The dense index `min_mer_pos_map`: a `4^k`-entry vector, zero-filled,
with `min_mer_pos_map[kmer] = pos` for each sorted canonical. -/
def min_mer_pos_map (k : Nat) : List Nat :=
  (min_mer_vec k).enum.foldl (fun v pk => v.set pk.2 pk.1)
    (List.replicate (4 ^ k) 0)

/-- Computable form of the canonical list: the sorted canonicals are
exactly the fixed points of `m ↦ min(m, rev_comp m)` in `0..4^k`. -/
def canonicalList (k : Nat) : List Nat :=
  (List.range (4 ^ k)).filter (fun m => decide (min m (rev_comp m k) = m))

theorem mem_min_mer_vec (k m : Nat) :
    m ∈ min_mer_vec k ↔ (m < 4 ^ k ∧ min m (rev_comp m k) = m) := by
  rw [min_mer_vec, Finset.mem_sort, min_mer_finset, Finset.mem_image]
  constructor
  · rintro ⟨x, hx, rfl⟩
    rw [Finset.mem_range] at hx
    refine ⟨?_, ?_⟩
    · have h1 : min x (rev_comp x k) ≤ x := min_le_left _ _
      omega
    · rcases le_total x (rev_comp x k) with h | h
      · have hmin : min x (rev_comp x k) = x := min_eq_left h
        rw [hmin]
        exact hmin
      · have hmin : min x (rev_comp x k) = rev_comp x k := min_eq_right h
        rw [hmin, rev_comp_involution k x hx]
        exact min_eq_left h
  · rintro ⟨h1, h2⟩
    exact ⟨m, Finset.mem_range.mpr h1, h2⟩

theorem mem_canonicalList (k m : Nat) :
    m ∈ canonicalList k ↔ (m < 4 ^ k ∧ min m (rev_comp m k) = m) := by
  rw [canonicalList, List.mem_filter, List.mem_range, decide_eq_true_eq]

theorem canonicalList_pairwise (k : Nat) :
    (canonicalList k).Pairwise (· < ·) :=
  List.Pairwise.filter _ (List.pairwise_lt_range (4 ^ k))

theorem min_mer_vec_eq_canonicalList (k : Nat) :
    min_mer_vec k = canonicalList k := by
  have hnd1 : (min_mer_vec k).Nodup := (min_mer_finset k).sort_nodup (· ≤ ·)
  have hnd2 : (canonicalList k).Nodup :=
    (canonicalList_pairwise k).imp Nat.ne_of_lt
  have hperm : (min_mer_vec k).Perm (canonicalList k) := by
    rw [List.perm_ext_iff_of_nodup hnd1 hnd2]
    intro a
    rw [mem_min_mer_vec, mem_canonicalList]
  exact List.eq_of_perm_of_sorted hperm
    ((min_mer_finset k).sort_sorted (· ≤ ·))
    ((canonicalList_pairwise k).imp Nat.le_of_lt)

theorem min_mer_vec_sorted_lt (k : Nat) :
    (min_mer_vec k).Sorted (· < ·) := (min_mer_finset k).sort_sorted_lt

theorem min_mer_vec_lt (k : Nat) {c : Nat} (hc : c ∈ min_mer_vec k) :
    c < 4 ^ k := ((mem_min_mer_vec k c).mp hc).1

theorem zero_mem_min_mer_vec (k : Nat) : 0 ∈ min_mer_vec k := by
  rw [mem_min_mer_vec]
  exact ⟨pow_pos (by norm_num) k, min_eq_left (Nat.zero_le _)⟩

theorem kmer_count_pos (k : Nat) : 0 < kmer_count k := by
  rw [kmer_count]
  exact List.length_pos.mpr (List.ne_nil_of_mem (zero_mem_min_mer_vec k))

/-! Generic facts about the index-writing fold. -/

theorem getD_set_ne {α : Type} (l : List α) (i j : Nat) (a d : α) (h : i ≠ j) :
    (l.set i a).getD j d = l.getD j d := by
  simp [List.getD, List.getElem?_set_ne h]

theorem getD_set_self {α : Type} (l : List α) (i : Nat) (a d : α)
    (h : i < l.length) : (l.set i a).getD i d = a := by
  rw [List.getD_eq_getElem _ _ (by simpa using h), List.getElem_set_self]

theorem foldl_set_length (ps : List (Nat × Nat)) : ∀ (v : List Nat),
    (ps.foldl (fun v pk => v.set pk.2 pk.1) v).length = v.length := by
  induction ps with
  | nil => intro v; rfl
  | cons p t ih =>
    intro v
    simp only [List.foldl_cons]
    rw [ih, List.length_set]

theorem foldl_set_getD_not_mem (vec : List Nat) :
    ∀ (n : Nat) (base : List Nat) (m : Nat), m ∉ vec →
      ((vec.enumFrom n).foldl (fun v pk => v.set pk.2 pk.1) base).getD m 0 =
        base.getD m 0 := by
  induction vec with
  | nil => intro n base m _; rfl
  | cons a t ih =>
    intro n base m hm
    simp only [List.enumFrom_cons, List.foldl_cons]
    rw [ih (n + 1) (base.set a n) m (fun hc => hm (List.mem_cons_of_mem a hc))]
    exact getD_set_ne base a m n 0 (fun hc => hm (hc ▸ List.mem_cons_self a t))

theorem foldl_set_getD_getElem (vec : List Nat) (hnd : vec.Nodup) :
    ∀ (n : Nat) (base : List Nat) (i : Nat) (hi : i < vec.length),
      vec[i] < base.length →
      ((vec.enumFrom n).foldl (fun v pk => v.set pk.2 pk.1) base).getD
        (vec[i]) 0 = n + i := by
  induction vec with
  | nil => intro n base i hi; simp at hi
  | cons a t ih =>
    intro n base i hi hlt
    simp only [List.enumFrom_cons, List.foldl_cons]
    match i with
    | 0 =>
      simp only [List.getElem_cons_zero] at hlt ⊢
      have hna : a ∉ t := (List.nodup_cons.mp hnd).1
      rw [foldl_set_getD_not_mem t (n + 1) (base.set a n) a hna,
        getD_set_self base a n 0 hlt]
      omega
    | i + 1 =>
      simp only [List.getElem_cons_succ] at hlt ⊢
      have hit : i < t.length := by
        have := hi; simp only [List.length_cons] at this; omega
      have := ih (List.nodup_cons.mp hnd).2 (n + 1) (base.set a n) i hit
        (by rwa [List.length_set])
      rw [this]
      omega

theorem min_mer_pos_map_getD_getElem (k : Nat) (i : Nat)
    (hi : i < (min_mer_vec k).length) :
    (min_mer_pos_map k).getD ((min_mer_vec k)[i]) 0 = i := by
  have hlt : (min_mer_vec k)[i] < 4 ^ k :=
    min_mer_vec_lt k (List.getElem_mem hi)
  have h := foldl_set_getD_getElem (min_mer_vec k)
    ((min_mer_finset k).sort_nodup (· ≤ ·)) 0 (List.replicate (4 ^ k) 0) i hi
    (by rwa [List.length_replicate])
  rw [Nat.zero_add] at h
  exact h

theorem replicate_getD {α : Type} (n m : Nat) (x : α) :
    (List.replicate n x).getD m x = x := by
  by_cases hm : m < n
  · rw [List.getD_eq_getElem _ _ (by simpa using hm), List.getElem_replicate]
  · rw [List.getD_eq_default]
    rw [List.length_replicate]
    omega

theorem min_mer_pos_map_getD_not_mem (k m : Nat) (h : m ∉ min_mer_vec k) :
    (min_mer_pos_map k).getD m 0 = 0 := by
  have h2 := foldl_set_getD_not_mem (min_mer_vec k) 0
    (List.replicate (4 ^ k) 0) m h
  calc (min_mer_pos_map k).getD m 0
      = (List.replicate (4 ^ k) (0:Nat)).getD m 0 := h2
  _ = 0 := replicate_getD _ _ _

/-- **C7.** For every `1 ≤ k ≤ 7` the canonical index assigns every one of
the `4^k` k-mers a slot below `C(k)`; every slot below `C(k)` is the slot
of some canonical k-mer; slot order is the numeric order of the
canonicals; and `C(4) = 136`. -/
theorem c7_canonical_index (k : Nat) (hk1 : 1 ≤ k) (hk7 : k ≤ 7) :
    (∀ m, m < 4 ^ k → (min_mer_pos_map k).getD m 0 < kmer_count k) ∧
    (∀ s, s < kmer_count k → ∃ c, c < 4 ^ k ∧ c ∈ min_mer_vec k ∧
      (min_mer_pos_map k).getD c 0 = s) ∧
    (∀ c1 c2, c1 ∈ min_mer_vec k → c2 ∈ min_mer_vec k → c1 < c2 →
      (min_mer_pos_map k).getD c1 0 < (min_mer_pos_map k).getD c2 0) ∧
    kmer_count 4 = 136 := by
  refine ⟨?_, ?_, ?_, ?_⟩
  · intro m _
    by_cases hm : m ∈ min_mer_vec k
    · obtain ⟨i, hi, rfl⟩ := List.mem_iff_getElem.mp hm
      rw [min_mer_pos_map_getD_getElem k i hi]
      exact hi
    · rw [min_mer_pos_map_getD_not_mem k m hm]
      exact kmer_count_pos k
  · intro s hs
    refine ⟨(min_mer_vec k)[s], min_mer_vec_lt k (List.getElem_mem hs),
      List.getElem_mem hs, min_mer_pos_map_getD_getElem k s hs⟩
  · intro c1 c2 h1 h2 hlt
    obtain ⟨i, hi, rfl⟩ := List.mem_iff_getElem.mp h1
    obtain ⟨j, hj, rfl⟩ := List.mem_iff_getElem.mp h2
    rw [min_mer_pos_map_getD_getElem k i hi, min_mer_pos_map_getD_getElem k j hj]
    by_contra hij
    push_neg at hij
    rcases Nat.lt_or_ge j i with hji | hji
    · have := (min_mer_vec_sorted_lt k).get_strictMono
        (show (⟨j, hj⟩ : Fin _) < ⟨i, hi⟩ from hji)
      simp only [List.get_eq_getElem] at this
      omega
    · have hji' : j = i := by omega
      subst hji'
      omega
  · have hb : min_mer_vec 4 = canonicalList 4 := min_mer_vec_eq_canonicalList 4
    rw [kmer_count, hb]
    decide

/-- Witness for `c7_canonical_index` at `k = 2`. -/
theorem c7_canonical_index_witness :
    (∀ m, m < 4 ^ 2 → (min_mer_pos_map 2).getD m 0 < kmer_count 2) ∧
    kmer_count 4 = 136 :=
  ⟨(c7_canonical_index 2 (by norm_num) (by norm_num)).1,
   (c7_canonical_index 2 (by norm_num) (by norm_num)).2.2.2⟩

/-! ### Claim C3: the oligonucleotide vectoriser (`OligoComputer::vectorise_one`) -/

/-- The count accumulation of `vectorise_one` (`src/composition/src/oligo.rs`,
lines 221–239): for each `(fmer, rmer)`, bump
`vec[pos_map[min(fmer, rmer)]]`.  The `f64` counters hold exact small
integers, embedded as `ℚ`. -/
def oligoVecRaw (k : Nat) (seq : List Nat) : List ℚ :=
  (kmerList seq k).foldl
    (fun v p => v.set ((min_mer_pos_map k).getD (min p.1 p.2) 0)
      (v.getD ((min_mer_pos_map k).getD (min p.1 p.2) 0) 0 + 1))
    (List.replicate (kmer_count k) (0:ℚ))

/-- The running `total` of `vectorise_one`: one unit per emitted k-mer. -/
def oligoTotal (k : Nat) (seq : List Nat) : ℚ := ((kmerList seq k).length : ℚ)

/-- `OligoComputer::vectorise_one`: raw counts, normalised by
`max 1 total` when `norm` is set. -/
def vectorise_one (k : Nat) (norm : Bool) (seq : List Nat) : List ℚ :=
  if norm then (oligoVecRaw k seq).map (fun el => el / max 1 (oligoTotal k seq))
  else oligoVecRaw k seq

theorem pos_map_getD_lt (k m : Nat) :
    (min_mer_pos_map k).getD m 0 < kmer_count k := by
  by_cases hm : m ∈ min_mer_vec k
  · obtain ⟨i, hi, rfl⟩ := List.mem_iff_getElem.mp hm
    rw [min_mer_pos_map_getD_getElem k i hi]
    exact hi
  · rw [min_mer_pos_map_getD_not_mem k m hm]
    exact kmer_count_pos k

theorem incr_fold_eq {β : Type} (slot : β → Nat) :
    ∀ (items : List β) (v : List ℚ),
    (∀ p ∈ items, slot p < v.length) →
    items.foldl (fun v p => v.set (slot p) (v.getD (slot p) 0 + 1)) v =
      (List.range v.length).map
        (fun j => v.getD j 0 + ((items.map slot).count j : ℚ)) := by
  intro items
  induction items with
  | nil =>
    intro v _
    simp only [List.foldl_nil, List.map_nil, List.count_nil, Nat.cast_zero,
      add_zero]
    apply List.ext_getElem
    · simp
    · intro j h1 h2
      rw [List.getElem_map, List.getElem_range,
        List.getD_eq_getElem v 0 (by simpa using h1)]
  | cons p t ih =>
    intro v hall
    have hs : slot p < v.length := hall p (List.mem_cons_self p t)
    simp only [List.foldl_cons, List.map_cons]
    rw [ih (v.set (slot p) (v.getD (slot p) 0 + 1))
      (by intro x hx; rw [List.length_set]; exact hall x (List.mem_cons_of_mem p hx))]
    rw [List.length_set]
    apply List.map_congr_left
    intro j hj
    have hjv : j < v.length := List.mem_range.mp hj
    by_cases hjs : j = slot p
    · rw [hjs, getD_set_self v (slot p) _ 0 hs, List.count_cons_self]
      push_cast
      ring
    · rw [getD_set_ne v (slot p) j _ 0 (fun hc => hjs hc.symm),
        List.count_cons_of_ne hjs]

/-- The raw count vector, slot by slot: entry `j` counts the canonical
k-mers whose index slot is `j`. -/
theorem oligoVecRaw_eq_count (k : Nat) (seq : List Nat) :
    oligoVecRaw k seq = (List.range (kmer_count k)).map
      (fun j => ((((kmerList seq k).map
        (fun p => (min_mer_pos_map k).getD (min p.1 p.2) 0)).count j : Nat) : ℚ)) := by
  rw [oligoVecRaw]
  rw [incr_fold_eq (fun p : Nat × Nat => (min_mer_pos_map k).getD (min p.1 p.2) 0)
    (kmerList seq k) (List.replicate (kmer_count k) (0:ℚ))
    (by intro x _; rw [List.length_replicate]; exact pos_map_getD_lt k _)]
  rw [List.length_replicate]
  apply List.map_congr_left
  intro j _
  rw [replicate_getD, zero_add]

/-! Reverse-complement symmetry of the k-mer stream. -/

theorem rcSeq_length (s : List Nat) : (rcSeq s).length = s.length := by
  simp [rcSeq]

theorem compByte_validByte (b : Nat) : validByte (compByte b) = validByte b := by
  by_cases hb : validByte b
  · rw [compByte_valid hb, hb]
  · have hx : ¬ encode b < 4 := by simpa [validByte] using hb
    rw [compByte, if_neg hx]
    have : validByte 78 = false := by decide
    rw [this]
    simp [validByte] at hb ⊢
    omega

theorem rcSeq_all_valid (w : List Nat) :
    (rcSeq w).all validByte = w.all validByte := by
  rw [rcSeq, List.all_reverse, List.all_map]
  induction w with
  | nil => rfl
  | cons b t ih =>
    simp only [List.all_cons, Function.comp_apply, compByte_validByte, ih]

theorem rcSeq_getD (s : List Nat) (j : Nat) (hj : j < s.length) :
    (rcSeq s).getD j 0 = compByte (s.getD (s.length - 1 - j) 0) := by
  have hj2 : s.length - 1 - j < s.length := by omega
  rw [rcSeq, List.getD_eq_getElem?_getD, List.getElem?_reverse (by simpa using hj),
    List.length_map, List.getElem?_map,
    List.getElem?_eq_getElem hj2, List.getD_eq_getElem s 0 hj2]
  rfl

theorem map_range_reverse {α : Type} : ∀ (n : Nat) (f : Nat → α),
    ((List.range n).map f).reverse =
      (List.range n).map (fun j => f (n - 1 - j)) := by
  intro n
  induction n with
  | zero => intro f; rfl
  | succ n ih =>
    intro f
    conv_lhs => rw [List.range_succ, List.map_append, List.reverse_append]
    conv_rhs => rw [List.range_succ_eq_map, List.map_cons, List.map_map]
    simp only [List.map_cons, List.map_nil, List.reverse_cons, List.reverse_nil,
      List.nil_append, List.singleton_append, List.cons_append]
    have h0 : n + 1 - 1 - 0 = n := by omega
    rw [h0, ih f]
    congr 1
    apply List.map_congr_left
    intro j hj
    have := List.mem_range.mp hj
    simp only [Function.comp_apply]
    congr 1
    omega

theorem rcSeq_map_range (g : Nat → Nat) (k : Nat) :
    rcSeq ((List.range k).map g) =
      (List.range k).map (fun j => compByte (g (k - 1 - j))) := by
  simp only [rcSeq, List.map_map]
  rw [map_range_reverse]
  rfl

theorem rcSeq_window (seq : List Nat) (s k : Nat) (hk : 1 ≤ k)
    (h : s + k ≤ seq.length) :
    window (rcSeq seq) s k = rcSeq (window seq (seq.length - k - s) k) := by
  have hL : (rcSeq seq).length = seq.length := rcSeq_length seq
  have hmk : (seq.length - k - s) + k ≤ seq.length := by omega
  rw [window_eq_map_getD (rcSeq seq) s k (by omega),
    window_eq_map_getD seq (seq.length - k - s) k hmk, rcSeq_map_range]
  apply List.map_congr_left
  intro j hj
  have hjk : j < k := List.mem_range.mp hj
  rw [rcSeq_getD seq (s + j) (by omega)]
  congr 2
  omega

theorem encodeWin_comp_comp {w : List Nat} (h : w.all validByte = true) :
    encodeWin (rcSeq (rcSeq w)) = encodeWin w := by
  have h5 : rcSeq (rcSeq w) = w.map (fun b => compByte (compByte b)) := by
    rw [rcSeq, rcSeq, List.map_reverse, List.reverse_reverse, List.map_map]
    rfl
  rw [h5]
  apply encodeWin_congr
  · simp
  · intro i hi hi'
    rw [List.getElem_map]
    have hbv : validByte (w[i]) = true := by
      rw [List.all_eq_true] at h
      exact h _ (List.getElem_mem _)
    have he1 := encode_compByte (compByte_valid hbv)
    have he2 := encode_compByte hbv
    have hlt : encode (w[i]) < 4 := by
      simpa [validByte] using hbv
    rw [he1, he2]
    omega

theorem encodeWin_rcSeq {w : List Nat} (h : w.all validByte = true) :
    encodeWin (rcSeq w) = rcWin w := (rcWin_eq_encodeWin_comp h).symm

theorem rcWin_rcSeq {w : List Nat} (h : w.all validByte = true) :
    rcWin (rcSeq w) = encodeWin w := by
  have hv : (rcSeq w).all validByte = true := by rw [rcSeq_all_valid]; exact h
  rw [rcWin_eq_encodeWin_comp hv]
  exact encodeWin_comp_comp h

theorem filterMap_range_rev {α : Type} :
    ∀ (n : Nat) (h : Nat → Option α),
      (List.range n).filterMap (fun s => h (n - 1 - s)) =
        ((List.range n).filterMap h).reverse := by
  intro n
  induction n with
  | zero => intro h; rfl
  | succ n ih =>
    intro h
    have hleft : (List.range (n + 1)).filterMap (fun s => h (n + 1 - 1 - s)) =
        (List.range n).filterMap (fun s => (fun m => h (m + 1)) (n - 1 - s)) ++
          (h 0).toList := by
      rw [List.range_succ, List.filterMap_append]
      congr 1
      · apply List.filterMap_congr
        intro s hs
        have := List.mem_range.mp hs
        congr 1
        omega
      · have h0 : n + 1 - 1 - n = 0 := by omega
        cases hh : h 0 <;>
          simp [List.filterMap_cons, h0, hh]
    have hright : ((List.range (n + 1)).filterMap h).reverse =
        ((List.range n).filterMap (fun m => h (m + 1))).reverse ++
          (h 0).toList := by
      rw [List.range_succ_eq_map, List.filterMap_cons, List.filterMap_map]
      have hcomp : (List.range n).filterMap (h ∘ Nat.succ) =
          (List.range n).filterMap (fun m => h (m + 1)) := by
        apply List.filterMap_congr
        intro x _
        rfl
      cases hh : h 0
      · simp only [hh, hcomp, Option.toList, List.append_nil]
      · simp only [hh, hcomp, List.reverse_cons, Option.toList]
    rw [hleft, hright, ih (fun m => h (m + 1))]

/-- The k-mer stream of the reverse complement: the same pairs, swapped
and in reverse order. -/
theorem kmerList_rcSeq (seq : List Nat) (k : Nat) (hk : 1 ≤ k) :
    kmerList (rcSeq seq) k =
      ((kmerList seq k).map (fun p => (p.2, p.1))).reverse := by
  rw [kmerList_windows (rcSeq seq) k hk, kmerList_windows seq k hk,
    rcSeq_length seq]
  rw [List.map_filterMap]
  rw [← filterMap_range_rev (seq.length + 1 - k)]
  apply List.filterMap_congr
  intro s hs
  have hsn : s < seq.length + 1 - k := List.mem_range.mp hs
  have hsk : s + k ≤ seq.length := by omega
  have hm : seq.length + 1 - k - 1 - s = seq.length - k - s := by omega
  have hmk : (seq.length - k - s) + k ≤ seq.length := by omega
  rw [hm, rcSeq_window seq s k hk hsk]
  by_cases hv : (window seq (seq.length - k - s) k).all validByte = true
  · rw [if_pos (by rw [rcSeq_all_valid]; exact hv), if_pos hv,
      encodeWin_rcSeq hv, rcWin_rcSeq hv]
    rfl
  · rw [if_neg (by rw [rcSeq_all_valid]; exact hv), if_neg hv]
    rfl

/-- **C3.** Canonical symmetry of the oligonucleotide vectoriser: the
frequency vector of a sequence equals that of its reverse complement,
slot for slot, in both normalised and unnormalised mode (ambiguous bytes
allowed; they reverse-complement to `N`). -/
theorem c3_canonical_symmetry (k : Nat) (hk : 1 ≤ k) (hk32 : k ≤ 32)
    (norm : Bool) (seq : List Nat) :
    vectorise_one k norm seq = vectorise_one k norm (rcSeq seq) := by
  have hlist := kmerList_rcSeq seq k hk
  have hraw : oligoVecRaw k (rcSeq seq) = oligoVecRaw k seq := by
    rw [oligoVecRaw_eq_count, oligoVecRaw_eq_count]
    apply List.map_congr_left
    intro j _
    congr 1
    rw [hlist, List.map_reverse, List.count_reverse, List.map_map]
    have hfun : (kmerList seq k).map
        ((fun p : Nat × Nat => (min_mer_pos_map k).getD (min p.1 p.2) 0) ∘
          (fun p : Nat × Nat => (p.2, p.1))) =
        (kmerList seq k).map
          (fun p : Nat × Nat => (min_mer_pos_map k).getD (min p.1 p.2) 0) := by
      apply List.map_congr_left
      intro p _
      simp only [Function.comp_apply]
      rw [min_comm]
    rw [hfun]
  have htot : oligoTotal k (rcSeq seq) = oligoTotal k seq := by
    rw [oligoTotal, oligoTotal, hlist]
    rw [List.length_reverse, List.length_map]
  rw [vectorise_one, vectorise_one, hraw, htot]

/-- Witness for `c3_canonical_symmetry`: `AACGTN`, `k = 2`, both modes. -/
theorem c3_canonical_symmetry_witness :
    vectorise_one 2 true [65, 65, 67, 71, 84, 78] =
      vectorise_one 2 true (rcSeq [65, 65, 67, 71, 84, 78]) ∧
    vectorise_one 2 false [65, 65, 67, 71, 84, 78] =
      vectorise_one 2 false (rcSeq [65, 65, 67, 71, 84, 78]) :=
  ⟨c3_canonical_symmetry 2 (by norm_num) (by norm_num) true _,
   c3_canonical_symmetry 2 (by norm_num) (by norm_num) false _⟩

/-! ### The minimiser generator (`src/kmer/src/minimiser.rs`) -/

/-- `u64::MAX`, the sentinel for "no active minimiser". -/
def U64MAX : Nat := 2 ^ 64 - 1

/-- The fields of `MinimiserGenerator` (minus the borrowed sequence). -/
structure MGState where
  pos : Nat
  m_window_start : Nat
  m_window_end : Nat
  m_val_f : Nat
  m_val_r : Nat
  m_val_l : Nat
  m_active : Nat
  buff : List Nat
  buff_pos : Nat
deriving Repr, DecidableEq

/-- `MinimiserGenerator::new`. -/
def mgInit : MGState :=
  ⟨0, 0, 0, 0, 0, 0, U64MAX, [], 0⟩

/-- The linear minimum scan used both for the rescan after popping the
minimum and for the first full buffer: running `(index, value)` pair,
strict `<`, so the first occurrence of the minimum wins. -/
def scanMinAux : List Nat → Nat → Nat → Nat → Nat × Nat
  | [], _, p, v => (p, v)
  | x :: rest, j, p, v =>
    if x < v then scanMinAux rest (j + 1) j x else scanMinAux rest (j + 1) p v

def scanMin (buff : List Nat) (p0 v0 : Nat) : Nat × Nat :=
  scanMinAux buff 0 p0 v0

/-- The buffer-update stage of `MinimiserGenerator::next` for a valid base
(`minimiser.rs`, lines 110–152): pop/push when full and either emit a
closed window (rescan or new-minimum cases) or fall through. `f`, `r`,
`l2`, `cm` are the freshly rolled values. -/
def mgBufferPhase (w m : Nat) (st : MGState) (f r l2 cm : Nat) :
    MGState × Option (Nat × Nat × Nat) :=
  if st.buff.length = w - m + 1 then
    if st.buff_pos = 0 then
      if (scanMin (st.buff.tail ++ [cm]) 0 U64MAX).2 ≠ st.m_active then
        ({ st with
            m_val_f := f
            m_val_r := r
            m_val_l := l2
            m_window_end := st.pos
            m_active := (scanMin (st.buff.tail ++ [cm]) 0 U64MAX).2
            buff_pos := (scanMin (st.buff.tail ++ [cm]) 0 U64MAX).1
            m_window_start := st.pos - w + 1
            buff := st.buff.tail ++ [cm] },
         some (st.m_active, st.m_window_start, st.pos))
      else
        ({ st with
            m_val_f := f
            m_val_r := r
            m_val_l := l2
            buff := st.buff.tail ++ [cm]
            buff_pos := (scanMin (st.buff.tail ++ [cm]) 0 U64MAX).1 }, none)
    else if cm < st.m_active then
      ({ st with
          m_val_f := f
          m_val_r := r
          m_val_l := l2
          m_window_end := st.pos
          m_active := cm
          buff_pos := (st.buff.tail ++ [cm]).length - 1
          m_window_start := st.pos - w + 1
          buff := st.buff.tail ++ [cm] },
       some (st.m_active, st.m_window_start, st.pos))
    else
      ({ st with
          m_val_f := f
          m_val_r := r
          m_val_l := l2
          buff := st.buff.tail ++ [cm]
          buff_pos := st.buff_pos - 1 }, none)
  else
    ({ st with
        m_val_f := f
        m_val_r := r
        m_val_l := l2
        buff := st.buff ++ [cm] }, none)

/-- The "first time the buffer is full" scan (`minimiser.rs`, lines
154–162). -/
def mgScanPhase (w m : Nat) (st1 : MGState) : MGState :=
  if st1.m_active = U64MAX ∧ st1.buff.length = w - m + 1 then
    { st1 with
        buff_pos := (scanMin st1.buff st1.buff_pos st1.m_active).1
        m_active := (scanMin st1.buff st1.buff_pos st1.m_active).2 }
  else st1

/-- One iteration of the loop of `MinimiserGenerator::next` over the byte
at `st.pos`: roll on a valid base (with the buffer/scan/end-of-sequence
stages), or flush-and-reset on an ambiguous one. -/
def mgStep (w m len : Nat) (st : MGState) (b : Nat) :
    MGState × Option (Nat × Nat × Nat) :=
  if encode b < 4 then
    if st.m_val_l + 1 < m then
      ({ st with
          m_val_f := ((st.m_val_f <<< 2) ||| encode b) &&& (4 ^ m - 1)
          m_val_r := (st.m_val_r >>> 2) ||| ((encode b ^^^ 3) <<< (2 * (m - 1)))
          m_val_l := st.m_val_l + 1
          pos := st.pos + 1 }, none)
    else
      match mgBufferPhase w m st
        (((st.m_val_f <<< 2) ||| encode b) &&& (4 ^ m - 1))
        ((st.m_val_r >>> 2) ||| ((encode b ^^^ 3) <<< (2 * (m - 1))))
        (st.m_val_l + 1 - 1)
        (min (((st.m_val_f <<< 2) ||| encode b) &&& (4 ^ m - 1))
          ((st.m_val_r >>> 2) ||| ((encode b ^^^ 3) <<< (2 * (m - 1))))) with
      | (st1, some e) => ({ st1 with pos := st.pos + 1 }, some e)
      | (st1, none) =>
        if st.pos = len - 1 then
          ({ mgScanPhase w m st1 with pos := st.pos + 1 },
           some ((mgScanPhase w m st1).m_active,
                 (mgScanPhase w m st1).m_window_start, len))
        else ({ mgScanPhase w m st1 with pos := st.pos + 1 }, none)
  else
    if st.buff.length = w - m + 1 then
      ({ st with
          buff_pos := 0
          m_active := U64MAX
          m_val_f := 0
          m_val_r := 0
          m_val_l := 0
          m_window_end := 0
          m_window_start := st.pos + 1
          buff := []
          pos := st.pos + 1 },
       some (st.m_active, st.m_window_start, st.pos))
    else
      ({ st with
          buff_pos := 0
          m_active := U64MAX
          m_val_f := 0
          m_val_r := 0
          m_val_l := 0
          m_window_end := 0
          m_window_start := st.pos + 1
          buff := []
          pos := st.pos + 1 }, none)

/-- Driving the minimiser generator over the remaining bytes. -/
def mgRun (w m len : Nat) (st : MGState) : List Nat → List (Nat × Nat × Nat)
  | [] => []
  | b :: rest =>
    match mgStep w m len st b with
    | (st2, some e) => e :: mgRun w m len st2 rest
    | (st2, none) => mgRun w m len st2 rest

/-- All `(minimiser, window_start, window_end)` tuples produced by
`MinimiserGenerator::new(seq, w, m)` in emission order. -/
def minimiserList (seq : List Nat) (w m : Nat) : List (Nat × Nat × Nat) :=
  mgRun w m seq.length mgInit seq

/-- The bytes of `ATGCGATATCGNTAGGCGTCGATGGA`, the ambiguous-base test
sequence of `minimiser.rs`. -/
def mgTestSeq : List Nat :=
  [65, 84, 71, 67, 71, 65, 84, 65, 84, 67, 71, 78,
   84, 65, 71, 71, 67, 71, 84, 67, 71, 65, 84, 71, 71, 65]

/-! ### Claim C5: end-of-sequence emission -/

/-- **C5: the code's actual behaviour at the failing input.** On `AAAAA`
with `w = 8`, `m = 5` the trailing (whole) ambiguity-free region is
shorter than `w`, so no minimum is ever active; the claim (and the spec)
say nothing is emitted, yet the iterator emits the sentinel window
`(u64::MAX, 0, 5)` when it reaches the last byte. -/
theorem c5_code_behaviour :
    minimiserList [65, 65, 65, 65, 65] 8 5 = [(U64MAX, 0, 5)] ∧
    U64MAX = 2 ^ 64 - 1 ∧ (5 : Nat) + 1 ≤ 8 := by
  refine ⟨by decide, rfl, by norm_num⟩

/-! ### Claim C4: window coverage -/

/-- Consecutive-window relation of the amended C4: starts and ends are
non-decreasing, and a window starts at or before the previous window's
end unless the previous window ends at an ambiguous byte (or at the end
of the sequence). -/
def windowChainRel (seq : List Nat) (x y : Nat × Nat × Nat) : Prop :=
  x.2.1 ≤ y.2.1 ∧ x.2.2 ≤ y.2.2 ∧
  (y.2.1 ≤ x.2.2 ∨ validByte (seq.getD x.2.2 78) = false)

instance (seq : List Nat) (x y : Nat × Nat × Nat) :
    Decidable (windowChainRel seq x y) := by
  unfold windowChainRel
  infer_instance

/-- **C4, counterexample.** On the repo's own minimiser test input with
`(w, m) = (8, 5)`, the first two emitted ranges are `[0, 8)` and
`[1, 11)`; both lie inside the maximal ambiguity-free region `[0, 11)`
(the `N` is at byte 11) and overlap on `[1, 8)`, so the emitted ranges do
**not** partition the covered bases of that region. -/
theorem c4_counterexample :
    (minimiserList mgTestSeq 8 5).map (fun t => (t.2.1, t.2.2)) =
      [(0, 8), (1, 11), (12, 22), (15, 26)] ∧
    (∀ j, j < 11 → validByte (mgTestSeq.getD j 0) = true) ∧
    ¬ ((minimiserList mgTestSeq 8 5).Pairwise
        (fun x y => x.2.2 ≤ y.2.1 ∨ y.2.2 ≤ x.2.1)) := by
  refine ⟨by decide, by decide, by decide⟩

/-- State invariant of the minimiser generator: the window start never
passes the cursor, and the buffer contents account for the bytes between
the window start and the cursor. -/
def MGInv (m : Nat) (st : MGState) : Prop :=
  st.m_window_start ≤ st.pos ∧
  (st.buff ≠ [] → st.m_window_start + (m - 1) + st.buff.length ≤ st.pos) ∧
  (st.buff = [] → st.m_window_start + st.m_val_l ≤ st.pos)

/-- Relation between the last emitted window `y` and the current state:
the next emission (which always emits the current `m_window_start`)
extends the chain. -/
def MGLink (w m : Nat) (seq : List Nat) (y : Nat × Nat × Nat)
    (st : MGState) : Prop :=
  y.2.1 ≤ st.m_window_start ∧ y.2.2 ≤ st.pos ∧
  (st.m_window_start ≤ y.2.2 ∨ validByte (seq.getD y.2.2 78) = false) ∧
  (validByte (seq.getD y.2.2 78) = true → st.buff.length = w - m + 1)

theorem mgScanPhase_pos (w m : Nat) (s : MGState) :
    (mgScanPhase w m s).pos = s.pos := by
  rw [mgScanPhase]
  split <;> rfl

theorem mgScanPhase_ws (w m : Nat) (s : MGState) :
    (mgScanPhase w m s).m_window_start = s.m_window_start := by
  rw [mgScanPhase]
  split <;> rfl

theorem mgScanPhase_buff (w m : Nat) (s : MGState) :
    (mgScanPhase w m s).buff = s.buff := by
  rw [mgScanPhase]
  split <;> rfl

theorem chain'_optHead {α : Type} (R : α → α → Prop) (x : Option α) (e : α)
    (l : List α) (h1 : ∀ a, x = some a → R a e)
    (h2 : List.Chain' R (e :: l)) :
    List.Chain' R (x.toList ++ e :: l) := by
  cases x with
  | none => exact h2
  | some a => exact List.chain'_cons.mpr ⟨h1 a rfl, h2⟩

theorem chain'_optHead_nil {α : Type} (R : α → α → Prop) (x : Option α) :
    List.Chain' R (x.toList ++ []) := by
  cases x with
  | none => exact List.chain'_nil
  | some a => exact List.chain'_singleton a

/-- Master invariant run of the minimiser generator: starting from any
state satisfying `MGInv` whose (optional) last emission satisfies
`MGLink`, the emissions form a `windowChainRel` chain. -/
theorem mgRun_chain (w m : Nat) (seq : List Nat) (hm : 1 ≤ m) (hw : m < w)
    (rest : List Nat) :
    ∀ (st : MGState) (x : Option (Nat × Nat × Nat)),
      rest = seq.drop st.pos →
      MGInv m st →
      (∀ y, x = some y → MGLink w m seq y st) →
      List.Chain' (windowChainRel seq)
        (x.toList ++ mgRun w m seq.length st rest) := by
  induction rest with
  | nil =>
    intro st x _ _ _
    rw [mgRun]
    exact chain'_optHead_nil _ x
  | cons b rest ih =>
    intro st x hdrop hInv hLink
    obtain ⟨hS, hU, hV⟩ := hInv
    have hposlt : st.pos < seq.length := by
      by_contra hc
      push_neg at hc
      rw [List.drop_eq_nil_of_le hc] at hdrop
      exact List.cons_ne_nil b rest hdrop
    have hb : seq.getD st.pos 78 = b := by
      have h0 : seq[st.pos]? = some b := by
        have h1 := List.getElem?_drop seq st.pos 0
        rw [← hdrop] at h1
        simpa using h1.symm
      rw [List.getD_eq_getElem?_getD, h0]
      rfl
    have hdrop' : rest = seq.drop (st.pos + 1) := by
      rw [← List.tail_drop, ← hdrop]
      rfl
    -- Shared continuation for the non-emitting buffer branches: after the
    -- buffer update produced `st1`, the scan phase runs, the position
    -- advances, and at end-of-sequence the active window is flushed.
    have hcontEOF : ∀ st1 : MGState,
        st1.m_window_start = st.m_window_start →
        st.pos = seq.length - 1 →
        List.Chain' (windowChainRel seq)
          (x.toList ++ ((mgScanPhase w m st1).m_active,
              (mgScanPhase w m st1).m_window_start, seq.length) ::
            mgRun w m seq.length
              { mgScanPhase w m st1 with pos := st.pos + 1 } rest) := by
      intro st1 hw1 heof
      have hlen1 : st.pos + 1 = seq.length := by omega
      have hrest0 : rest = [] := by
        rw [hdrop', hlen1, List.drop_length]
      rw [hrest0, mgRun]
      apply chain'_optHead (windowChainRel seq) x _ []
      · intro a hxa
        obtain ⟨hL1, hL2, hL3, _⟩ := hLink a hxa
        refine ⟨?_, ?_, ?_⟩
        · rw [mgScanPhase_ws, hw1]
          exact hL1
        · show a.2.2 ≤ seq.length
          omega
        · rw [mgScanPhase_ws, hw1]
          exact hL3
      · exact List.chain'_singleton _
    have hcontMid : ∀ st1 : MGState,
        st1.pos = st.pos →
        st1.m_window_start = st.m_window_start →
        st1.buff ≠ [] →
        st1.m_window_start + (m - 1) + st1.buff.length ≤ st.pos + 1 →
        (∀ y, x = some y → validByte (seq.getD y.2.2 78) = true →
            st1.buff.length = w - m + 1) →
        List.Chain' (windowChainRel seq)
          (x.toList ++ mgRun w m seq.length
            { mgScanPhase w m st1 with pos := st.pos + 1 } rest) := by
      intro st1 _ hw1 hne1 hb1 hfull1
      apply ih
      · exact hdrop'
      · refine ⟨?_, ?_, ?_⟩
        · show (mgScanPhase w m st1).m_window_start ≤ st.pos + 1
          rw [mgScanPhase_ws]
          omega
        · intro _
          show (mgScanPhase w m st1).m_window_start + (m - 1) +
              (mgScanPhase w m st1).buff.length ≤ st.pos + 1
          rw [mgScanPhase_ws, mgScanPhase_buff]
          exact hb1
        · intro hemp
          have hemp' : st1.buff = [] := by
            rw [← mgScanPhase_buff w m st1]
            exact hemp
          exact absurd hemp' hne1
      · intro y hy
        obtain ⟨hL1, hL2, hL3, _⟩ := hLink y hy
        refine ⟨?_, ?_, ?_, ?_⟩
        · show y.2.1 ≤ (mgScanPhase w m st1).m_window_start
          rw [mgScanPhase_ws, hw1]
          exact hL1
        · show y.2.2 ≤ st.pos + 1
          omega
        · show (mgScanPhase w m st1).m_window_start ≤ y.2.2 ∨ _
          rw [mgScanPhase_ws, hw1]
          exact hL3
        · intro hval
          show (mgScanPhase w m st1).buff.length = w - m + 1
          rw [mgScanPhase_buff]
          exact hfull1 y hy hval
    simp only [mgRun, mgStep]
    by_cases hv : encode b < 4
    · rw [if_pos hv]
      have hvbT : validByte (seq.getD st.pos 78) = true := by
        rw [hb]
        exact decide_eq_true hv
      by_cases hl : st.m_val_l + 1 < m
      · -- growing the m-mer run: no buffer activity
        rw [if_pos hl]
        dsimp only
        apply ih
        · exact hdrop'
        · refine ⟨?_, ?_, ?_⟩
          · show st.m_window_start ≤ st.pos + 1
            omega
          · intro hne
            have := hU hne
            show st.m_window_start + (m - 1) + st.buff.length ≤ st.pos + 1
            omega
          · intro hemp
            have := hV hemp
            show st.m_window_start + (st.m_val_l + 1) ≤ st.pos + 1
            omega
        · intro y hy
          obtain ⟨hL1, hL2, hL3, hL4⟩ := hLink y hy
          refine ⟨hL1, ?_, hL3, hL4⟩
          show y.2.2 ≤ st.pos + 1
          omega
      · -- full m-mer: buffer phase
        rw [if_neg hl]
        have hlge : m ≤ st.m_val_l + 1 := Nat.le_of_not_lt hl
        generalize ((st.m_val_f <<< 2) ||| encode b) &&& (4 ^ m - 1) = fv
        generalize (st.m_val_r >>> 2) |||
          ((encode b ^^^ 3) <<< (2 * (m - 1))) = rv
        generalize min fv rv = cm
        simp only [mgBufferPhase]
        by_cases hfull : st.buff.length = w - m + 1
        · rw [if_pos hfull]
          have hbuffne : st.buff ≠ [] := by
            intro h0
            rw [h0] at hfull
            simp only [List.length_nil] at hfull
            omega
          have hwpos : st.m_window_start + w ≤ st.pos := by
            have := hU hbuffne
            rw [hfull] at this
            omega
          have htail_len : ∀ c : Nat,
              (st.buff.tail ++ [c]).length = w - m + 1 := by
            intro c
            rw [List.length_append, List.length_tail, hfull]
            simp only [List.length_cons, List.length_nil]
            omega
          have htail_ne : ∀ c : Nat, st.buff.tail ++ [c] ≠ [] := by
            intro c h0
            exact List.cons_ne_nil c [] (List.append_eq_nil.mp h0).2
          -- the two "emit a closed window" continuations share this state
          have hemitChain :
              List.Chain' (windowChainRel seq)
                ((st.m_active, st.m_window_start, st.pos) ::
                  mgRun w m seq.length
                    { st with
                        m_val_f := fv
                        m_val_r := rv
                        m_val_l := st.m_val_l + 1 - 1
                        m_window_end := st.pos
                        m_active := (scanMin (st.buff.tail ++ [cm]) 0 U64MAX).2
                        buff_pos := (scanMin (st.buff.tail ++ [cm]) 0 U64MAX).1
                        m_window_start := st.pos - w + 1
                        buff := st.buff.tail ++ [cm]
                        pos := st.pos + 1 } rest) := by
            apply ih _ (some (st.m_active, st.m_window_start, st.pos))
            · exact hdrop'
            · refine ⟨?_, ?_, ?_⟩
              · show st.pos - w + 1 ≤ st.pos + 1
                omega
              · intro _
                show st.pos - w + 1 + (m - 1) +
                    (st.buff.tail ++ [cm]).length ≤ st.pos + 1
                rw [htail_len]
                omega
              · intro h0
                exact absurd h0 (htail_ne cm)
            · intro y hy
              rw [Option.some_inj] at hy
              subst hy
              refine ⟨?_, ?_, ?_, ?_⟩
              · show st.m_window_start ≤ st.pos - w + 1
                omega
              · show st.pos ≤ st.pos + 1
                omega
              · left
                show st.pos - w + 1 ≤ st.pos
                omega
              · intro _
                show (st.buff.tail ++ [cm]).length = w - m + 1
                exact htail_len cm
          have hemitChain2 :
              List.Chain' (windowChainRel seq)
                ((st.m_active, st.m_window_start, st.pos) ::
                  mgRun w m seq.length
                    { st with
                        m_val_f := fv
                        m_val_r := rv
                        m_val_l := st.m_val_l + 1 - 1
                        m_window_end := st.pos
                        m_active := cm
                        buff_pos := (st.buff.tail ++ [cm]).length - 1
                        m_window_start := st.pos - w + 1
                        buff := st.buff.tail ++ [cm]
                        pos := st.pos + 1 } rest) := by
            apply ih _ (some (st.m_active, st.m_window_start, st.pos))
            · exact hdrop'
            · refine ⟨?_, ?_, ?_⟩
              · show st.pos - w + 1 ≤ st.pos + 1
                omega
              · intro _
                show st.pos - w + 1 + (m - 1) +
                    (st.buff.tail ++ [cm]).length ≤ st.pos + 1
                rw [htail_len]
                omega
              · intro h0
                exact absurd h0 (htail_ne cm)
            · intro y hy
              rw [Option.some_inj] at hy
              subst hy
              refine ⟨?_, ?_, ?_, ?_⟩
              · show st.m_window_start ≤ st.pos - w + 1
                omega
              · show st.pos ≤ st.pos + 1
                omega
              · left
                show st.pos - w + 1 ≤ st.pos
                omega
              · intro _
                show (st.buff.tail ++ [cm]).length = w - m + 1
                exact htail_len cm
          have hprevEmit : ∀ a, x = some a →
              windowChainRel seq a (st.m_active, st.m_window_start, st.pos) := by
            intro a hxa
            obtain ⟨hL1, hL2, hL3, _⟩ := hLink a hxa
            exact ⟨hL1, hL2, hL3⟩
          by_cases hbp : st.buff_pos = 0
          · rw [if_pos hbp]
            by_cases hsc :
                (scanMin (st.buff.tail ++ [cm]) 0 U64MAX).2 ≠ st.m_active
            · rw [if_pos hsc]
              dsimp only
              exact chain'_optHead _ x _ _ hprevEmit hemitChain
            · rw [if_neg hsc]
              dsimp only
              by_cases heof : st.pos = seq.length - 1
              · rw [if_pos heof]
                dsimp only
                apply hcontEOF
                · rfl
                · exact heof
              · rw [if_neg heof]
                dsimp only
                apply hcontMid
                · rfl
                · rfl
                · exact htail_ne cm
                · show st.m_window_start + (m - 1) +
                      (st.buff.tail ++ [cm]).length ≤ st.pos + 1
                  rw [htail_len]
                  omega
                · intro y _ _
                  exact htail_len cm
          · rw [if_neg hbp]
            by_cases hlt : cm < st.m_active
            · rw [if_pos hlt]
              dsimp only
              exact chain'_optHead _ x _ _ hprevEmit hemitChain2
            · rw [if_neg hlt]
              dsimp only
              by_cases heof : st.pos = seq.length - 1
              · rw [if_pos heof]
                dsimp only
                apply hcontEOF
                · rfl
                · exact heof
              · rw [if_neg heof]
                dsimp only
                apply hcontMid
                · rfl
                · rfl
                · exact htail_ne cm
                · show st.m_window_start + (m - 1) +
                      (st.buff.tail ++ [cm]).length ≤ st.pos + 1
                  rw [htail_len]
                  omega
                · intro y _ _
                  exact htail_len cm
        · -- buffer not yet full: push
          rw [if_neg hfull]
          have hpush_ne : st.buff ++ [cm] ≠ [] := by
            intro h0
            exact List.cons_ne_nil cm [] (List.append_eq_nil.mp h0).2
          dsimp only
          by_cases heof : st.pos = seq.length - 1
          · rw [if_pos heof]
            dsimp only
            apply hcontEOF
            · rfl
            · exact heof
          · rw [if_neg heof]
            dsimp only
            apply hcontMid
            · rfl
            · rfl
            · exact hpush_ne
            · show st.m_window_start + (m - 1) +
                  (st.buff ++ [cm]).length ≤ st.pos + 1
              rw [List.length_append]
              simp only [List.length_cons, List.length_nil]
              by_cases hbe : st.buff = []
              · have := hV hbe
                rw [hbe]
                simp only [List.length_nil]
                omega
              · have := hU hbe
                omega
            · intro y hy hval
              exact absurd ((hLink y hy).2.2.2 hval) hfull
    · -- ambiguous base: reset, emitting the open window iff the buffer
      -- was full
      rw [if_neg hv]
      have hvbF : validByte (seq.getD st.pos 78) = false := by
        rw [hb]
        exact decide_eq_false hv
      have hInvReset : MGInv m
          { st with
              buff_pos := 0
              m_active := U64MAX
              m_val_f := 0
              m_val_r := 0
              m_val_l := 0
              m_window_end := 0
              m_window_start := st.pos + 1
              buff := []
              pos := st.pos + 1 } := by
        refine ⟨?_, ?_, ?_⟩
        · show st.pos + 1 ≤ st.pos + 1
          omega
        · intro h0
          exact absurd rfl h0
        · intro _
          show st.pos + 1 + 0 ≤ st.pos + 1
          omega
      by_cases hfull : st.buff.length = w - m + 1
      · rw [if_pos hfull]
        dsimp only
        apply chain'_optHead _ x _ _
        · intro a hxa
          obtain ⟨hL1, hL2, hL3, _⟩ := hLink a hxa
          exact ⟨hL1, hL2, hL3⟩
        · apply ih _ (some (st.m_active, st.m_window_start, st.pos))
          · exact hdrop'
          · exact hInvReset
          · intro y hy
            rw [Option.some_inj] at hy
            subst hy
            refine ⟨?_, ?_, ?_, ?_⟩
            · show st.m_window_start ≤ st.pos + 1
              omega
            · show st.pos ≤ st.pos + 1
              omega
            · right
              exact hvbF
            · intro hval
              rw [hvbF] at hval
              exact absurd hval (by simp)
      · rw [if_neg hfull]
        dsimp only
        apply ih
        · exact hdrop'
        · exact hInvReset
        · intro y hy
          obtain ⟨hL1, hL2, hL3, hL4⟩ := hLink y hy
          have hyF : validByte (seq.getD y.2.2 78) = false := by
            cases hvb : validByte (seq.getD y.2.2 78) with
            | false => rfl
            | true => exact absurd (hL4 hvb) hfull
          refine ⟨?_, ?_, ?_, ?_⟩
          · show y.2.1 ≤ st.pos + 1
            omega
          · show y.2.2 ≤ st.pos + 1
            omega
          · right
            exact hyF
          · intro hval
            rw [hyF] at hval
            exact absurd hval (by simp)

/-- **C4 (amended).** For `1 ≤ m < w ≤ 32` the windows emitted by the
minimiser iterator are monotonically non-decreasing in both `start` and
`end`, and each window starts at or before the previous window's end
unless the previous window was closed by an ambiguous byte (or by the end
of the sequence). The ranges may *overlap* (they do not partition the
covered bases: consecutive windows emitted on a minimiser change share
`w - 1` positions), but together they cover each maximal ambiguity-free
region contiguously, with no gap between consecutive windows of the same
region. -/
theorem c4_window_coverage (seq : List Nat) (w m : Nat)
    (hm : 1 ≤ m) (hw : m < w) (hw32 : w ≤ 32) :
    List.Chain' (windowChainRel seq) (minimiserList seq w m) := by
  have h := mgRun_chain w m seq hm hw seq mgInit none rfl
    ⟨Nat.le_refl 0, fun h0 => absurd rfl h0, fun _ => Nat.le_refl 0⟩
    (fun y hy => Option.noConfusion hy)
  simpa [minimiserList] using h

theorem c4_window_coverage_witness :
    List.Chain' (windowChainRel mgTestSeq) (minimiserList mgTestSeq 8 5) :=
  c4_window_coverage mgTestSeq 8 5 (by norm_num) (by norm_num) (by norm_num)

/-! ### Claim C9: the coverage vectoriser (`CovComputer::vectorise_one`) -/

/-- The count-table lookup of `vectorise_one`
(`self.kmer_counts.get(&min_mer).map_or(0_f64, |val| *val.get())`): a
k-mer absent from the table contributes count 0. The table is modelled as
an association list of exact integer counts. -/
def covCount (tbl : List (Nat × Nat)) (km : Nat) : Nat :=
  (tbl.lookup km).getD 0

/-- `CovComputer::vectorise_one` (`src/coverage/src/lib.rs`, lines
187–208): for each canonical k-mer with count `c`, add `c` (not 1) to
`vec[min(bin_count - 1, c / bin_size)]` and to `total`; divide by
`max 1 total` when `norm` is set. `f64` counters hold exact small
integers, embedded as `ℚ`; the `f64` floor-divide-and-cast agrees with
`Nat` division whenever `bin_size ≥ 1`. -/
def covVectoriseOne (tbl : List (Nat × Nat)) (k binSize binCount : Nat)
    (norm : Bool) (seq : List Nat) : List ℚ :=
  let acc := (kmerList seq k).foldl
    (fun vt p =>
      (vt.1.set (min (binCount - 1) (covCount tbl (min p.1 p.2) / binSize))
         (vt.1.getD (min (binCount - 1) (covCount tbl (min p.1 p.2) / binSize)) 0 +
           (covCount tbl (min p.1 p.2) : ℚ)),
       vt.2 + (covCount tbl (min p.1 p.2) : ℚ)))
    (List.replicate binCount (0:ℚ), (0:ℚ))
  if norm then acc.1.map (fun el => el / max 1 acc.2) else acc.1

/-- The claim's reading of the same loop: *increment* `vec[b]` and the
running total by **one** per k-mer (a histogram of the counts), rather
than adding the count itself. -/
def covVectoriseOneClaimed (tbl : List (Nat × Nat)) (k binSize binCount : Nat)
    (norm : Bool) (seq : List Nat) : List ℚ :=
  let acc := (kmerList seq k).foldl
    (fun vt p =>
      (vt.1.set (min (binCount - 1) (covCount tbl (min p.1 p.2) / binSize))
         (vt.1.getD (min (binCount - 1) (covCount tbl (min p.1 p.2) / binSize)) 0 + 1),
       vt.2 + 1))
    (List.replicate binCount (0:ℚ), (0:ℚ))
  if norm then acc.1.map (fun el => el / max 1 acc.2) else acc.1

/-- The count table of the repo's own `kmer_vec_test`: canonical `AAAA`
(= 0) has population count 3, the palindrome `ACGT` (= 27) count 1. -/
def covTestTbl : List (Nat × Nat) := [(0, 3), (27, 1)]

/-- The bytes of `ACGTNTTTT` (the `kmer_vec_test` input). -/
def covTestSeq : List Nat := [65, 67, 71, 84, 78, 84, 84, 84, 84]

/-- **C9, counterexample.** On the repo's own coverage test
(`ACGTNTTTT`, `k = 4`, `bin_size = 2`, `bin_count = 5`, counts
`AAAA ↦ 3`, `ACGT ↦ 1`, normalised), the code produces
`[1/4, 3/4, 0, 0, 0]` — each k-mer adds its *count* to its bucket, which
is the repo test's expected value — while the claim's
"increments vec[b] and the running total" histogram reading would give
`[1/2, 1/2, 0, 0, 0]`. -/
theorem c9_counterexample :
    covVectoriseOne covTestTbl 4 2 5 true covTestSeq =
      [1/4, 3/4, 0, 0, 0] ∧
    covVectoriseOneClaimed covTestTbl 4 2 5 true covTestSeq =
      [1/2, 1/2, 0, 0, 0] ∧
    covVectoriseOne covTestTbl 4 2 5 true covTestSeq ≠
      covVectoriseOneClaimed covTestTbl 4 2 5 true covTestSeq := by
  have hkl : kmerList covTestSeq 4 = [(27, 27), (255, 0)] := by decide
  have hcc1 : covCount covTestTbl 27 = 1 := by decide
  have hcc2 : covCount covTestTbl 0 = 3 := by decide
  have h1 : covVectoriseOne covTestTbl 4 2 5 true covTestSeq =
      [1/4, 3/4, 0, 0, 0] := by
    rw [covVectoriseOne, hkl]
    norm_num [hcc1, hcc2, min_def, max_def, List.getD]
    rfl
  have h2 : covVectoriseOneClaimed covTestTbl 4 2 5 true covTestSeq =
      [1/2, 1/2, 0, 0, 0] := by
    rw [covVectoriseOneClaimed, hkl]
    norm_num [hcc1, hcc2, min_def, max_def, List.getD]
    rfl
  refine ⟨h1, h2, ?_⟩
  rw [h1, h2]
  intro h
  simp only [List.cons.injEq] at h
  norm_num at h

theorem foldl_pair {α β γ : Type} (f : α → γ → α) (g : β → γ → β) :
    ∀ (l : List γ) (a : α) (b : β),
      l.foldl (fun ab c => (f ab.1 c, g ab.2 c)) (a, b) =
        (l.foldl f a, l.foldl g b) := by
  intro l
  induction l with
  | nil => intro a b; rfl
  | cons c t ih =>
    intro a b
    simp only [List.foldl_cons]
    exact ih _ _

/-- Weighted bucket fold: folding `v[slot p] += wt p` over `items` adds,
at every index `j`, the total weight of the items with slot `j`. -/
theorem wt_fold_eq {β : Type} (slot : β → Nat) (wt : β → ℚ) :
    ∀ (items : List β) (v : List ℚ),
    (∀ p ∈ items, slot p < v.length) →
    items.foldl (fun v p => v.set (slot p) (v.getD (slot p) 0 + wt p)) v =
      (List.range v.length).map
        (fun j => v.getD j 0 +
          ((items.filter (fun p => slot p == j)).map wt).sum) := by
  intro items
  induction items with
  | nil =>
    intro v _
    simp only [List.foldl_nil, List.filter_nil, List.map_nil, List.sum_nil,
      add_zero]
    apply List.ext_getElem
    · simp
    · intro j h1 h2
      rw [List.getElem_map, List.getElem_range,
        List.getD_eq_getElem v 0 (by simpa using h1)]
  | cons p t ih =>
    intro v hall
    have hs : slot p < v.length := hall p (List.mem_cons_self p t)
    simp only [List.foldl_cons]
    rw [ih (v.set (slot p) (v.getD (slot p) 0 + wt p))
      (by intro x hx; rw [List.length_set]; exact hall x (List.mem_cons_of_mem p hx))]
    rw [List.length_set]
    apply List.map_congr_left
    intro j hj
    have hjv : j < v.length := List.mem_range.mp hj
    by_cases hjs : j = slot p
    · have hfc : List.filter (fun q => slot q == j) (p :: t) =
          p :: List.filter (fun q => slot q == j) t :=
        List.filter_cons_of_pos (beq_iff_eq.mpr hjs.symm)
      rw [hfc, hjs, getD_set_self v (slot p) _ 0 hs]
      simp only [List.map_cons, List.sum_cons]
      ring
    · have hfc : List.filter (fun q => slot q == j) (p :: t) =
          List.filter (fun q => slot q == j) t :=
        List.filter_cons_of_neg (by simpa using fun hc => hjs hc.symm)
      rw [hfc, getD_set_ne v (slot p) j _ 0 (fun hc => hjs hc.symm)]

/-- **C9 (amended).** For `bin_size ≥ 1` and `bin_count ≥ 1` the coverage
vector has `bin_count` buckets and bucket `j` holds the **sum of the
counts** `c` of the sequence's canonical k-mers whose bin
`min(bin_count - 1, ⌊c / bin_size⌋)` is `j` (a k-mer absent from the
table contributing 0), divided by `max 1 total` when normalisation is on,
where `total` is the sum of all the counts. The claim's "increments
`vec[b]` and the running total" (a count-of-k-mers histogram) is wrong:
the code adds the count `c` itself, both to the bucket and to the
total. -/
theorem c9_coverage_binning (tbl : List (Nat × Nat))
    (k binSize binCount : Nat) (norm : Bool) (seq : List Nat)
    (hbs : 1 ≤ binSize) (hbc : 1 ≤ binCount) :
    (covVectoriseOne tbl k binSize binCount norm seq).length = binCount ∧
    (∀ j, j < binCount →
      (covVectoriseOne tbl k binSize binCount norm seq).getD j 0 =
        ((((kmerList seq k).map (fun p => covCount tbl (min p.1 p.2))).filter
            (fun c => min (binCount - 1) (c / binSize) == j)).sum : ℚ) /
          (if norm then
            max 1 ((((kmerList seq k).map
              (fun p => covCount tbl (min p.1 p.2))).sum : Nat) : ℚ)
           else 1)) := by
  have hsplit := foldl_pair
    (fun (v : List ℚ) (p : Nat × Nat) =>
      v.set (min (binCount - 1) (covCount tbl (min p.1 p.2) / binSize))
        (v.getD (min (binCount - 1) (covCount tbl (min p.1 p.2) / binSize)) 0 +
          (covCount tbl (min p.1 p.2) : ℚ)))
    (fun (t : ℚ) (p : Nat × Nat) => t + (covCount tbl (min p.1 p.2) : ℚ))
    (kmerList seq k) (List.replicate binCount (0:ℚ)) 0
  have hvec := wt_fold_eq
    (fun p : Nat × Nat => min (binCount - 1) (covCount tbl (min p.1 p.2) / binSize))
    (fun p : Nat × Nat => (covCount tbl (min p.1 p.2) : ℚ))
    (kmerList seq k) (List.replicate binCount (0:ℚ))
    (by
      intro x _
      rw [List.length_replicate]
      show min (binCount - 1) (covCount tbl (min x.1 x.2) / binSize) < binCount
      exact lt_of_le_of_lt (min_le_left _ _) (by omega))
  rw [List.length_replicate] at hvec
  have htot : (kmerList seq k).foldl
      (fun (t : ℚ) (p : Nat × Nat) => t + (covCount tbl (min p.1 p.2) : ℚ)) 0 =
      ((((kmerList seq k).map (fun p => covCount tbl (min p.1 p.2))).sum : Nat) : ℚ) := by
    rw [Nat.cast_list_sum, List.map_map, List.sum_eq_foldl, List.foldl_map]
    rfl
  have hfilt : ∀ j : Nat,
      (((kmerList seq k).filter (fun p =>
          min (binCount - 1) (covCount tbl (min p.1 p.2) / binSize) == j)).map
        (fun p => (covCount tbl (min p.1 p.2) : ℚ))).sum =
      ((((kmerList seq k).map (fun p => covCount tbl (min p.1 p.2))).filter
          (fun c => min (binCount - 1) (c / binSize) == j)).sum : ℚ) := by
    intro j
    rw [List.filter_map, Nat.cast_list_sum, List.map_map]
    rfl
  rw [covVectoriseOne]
  simp only [hsplit]
  rw [hvec, htot]
  cases norm with
  | false =>
    rw [if_neg (by simp)]
    constructor
    · simp
    · intro j hj
      rw [if_neg (by simp), div_one,
        List.getD_eq_getElem _ 0 (by simpa using hj)]
      rw [List.getElem_map, List.getElem_range, replicate_getD, zero_add,
        hfilt j]
  | true =>
    rw [if_pos rfl]
    constructor
    · simp
    · intro j hj
      rw [if_pos rfl,
        List.getD_eq_getElem _ 0 (by simpa using hj)]
      rw [List.getElem_map, List.getElem_map, List.getElem_range,
        replicate_getD, zero_add, hfilt j]

/-- Witness for `c9_coverage_binning` at the coverage test input. -/
theorem c9_coverage_binning_witness :
    (1 ≤ 2 ∧ 1 ≤ 5) ∧
    ((covVectoriseOne covTestTbl 4 2 5 true covTestSeq).length = 5 ∧
      ∀ j, j < 5 →
        (covVectoriseOne covTestTbl 4 2 5 true covTestSeq).getD j 0 =
          ((((kmerList covTestSeq 4).map
              (fun p => covCount covTestTbl (min p.1 p.2))).filter
              (fun c => min (5 - 1) (c / 2) == j)).sum : ℚ) /
            (if true then
              max 1 ((((kmerList covTestSeq 4).map
                (fun p => covCount covTestTbl (min p.1 p.2))).sum : Nat) : ℚ)
             else 1)) :=
  ⟨⟨by decide, by decide⟩,
   c9_coverage_binning covTestTbl 4 2 5 true covTestSeq (by decide) (by decide)⟩

/-! ### Claim C10: the CGR vectoriser (`CgrComputer::vectorise_one`) -/

/-- `CgrComputer::cgr_maps` (`src/composition/src/cgr.rs`, lines 119–145):
corners `A/a ↦ (0,0)`, `T/t/U/u ↦ (V,0)`, `G/g ↦ (V,V)`, `C/c ↦ (0,V)`;
any other byte is absent from the map. `f64` coordinates stay dyadic
rationals, embedded exactly as `ℚ`. -/
def cgr_map (V : ℚ) (b : Nat) : Option (ℚ × ℚ) :=
  if b = 65 ∨ b = 97 then some (0, 0)
  else if b = 84 ∨ b = 116 ∨ b = 85 ∨ b = 117 then some (V, 0)
  else if b = 71 ∨ b = 103 then some (V, V)
  else if b = 67 ∨ b = 99 then some (0, V)
  else none

/-- The loop of `CgrComputer::vectorise_one` (lines 101–118): walk the
bytes, halving the marker towards each base's corner and pushing every
marker; the first unmapped byte aborts the whole sequence with the typed
error. -/
def cgrAux (V : ℚ) : List Nat → (ℚ × ℚ) → Except String (List (ℚ × ℚ))
  | [], _ => Except.ok []
  | s :: rest, marker =>
    match cgr_map V s with
    | some corner =>
      match cgrAux V rest
        ((corner.1 + marker.1) / 2, (corner.2 + marker.2) / 2) with
      | Except.ok tail =>
        Except.ok (((corner.1 + marker.1) / 2, (corner.2 + marker.2) / 2) :: tail)
      | Except.error e => Except.error e
    | none => Except.error "Bad nucleotide, unable to proceed"

/-- `CgrComputer::vectorise_one`, starting from the centre `(V/2, V/2)`. -/
def cgrVectoriseOne (V : ℚ) (seq : List Nat) : Except String (List (ℚ × ℚ)) :=
  cgrAux V seq (V / 2, V / 2)

theorem cgrAux_ok_length (V : ℚ) :
    ∀ (seq : List Nat) (marker : ℚ × ℚ) (pts : List (ℚ × ℚ)),
      cgrAux V seq marker = Except.ok pts → pts.length = seq.length := by
  intro seq
  induction seq with
  | nil =>
    intro marker pts h
    rw [cgrAux] at h
    cases h
    rfl
  | cons s rest ih =>
    intro marker pts h
    rw [cgrAux] at h
    cases hm : cgr_map V s with
    | none =>
      rw [hm] at h
      cases h
    | some corner =>
      rw [hm] at h
      dsimp only at h
      cases hrec : cgrAux V rest
          ((corner.1 + marker.1) / 2, (corner.2 + marker.2) / 2) with
      | error e =>
        rw [hrec] at h
        cases h
      | ok tail =>
        rw [hrec] at h
        cases h
        simp only [List.length_cons]
        rw [ih _ tail hrec]

/-- The only error the CGR loop ever returns is the fixed message. -/
theorem cgrAux_error_msg (V : ℚ) :
    ∀ (seq : List Nat) (marker : ℚ × ℚ) (e : String),
      cgrAux V seq marker = Except.error e →
      e = "Bad nucleotide, unable to proceed" := by
  intro seq
  induction seq with
  | nil =>
    intro marker e h
    rw [cgrAux] at h
    cases h
  | cons a t iht =>
    intro marker e h
    rw [cgrAux] at h
    cases hma : cgr_map V a with
    | none =>
      rw [hma] at h
      cases h
      rfl
    | some c2 =>
      rw [hma] at h
      dsimp only at h
      cases hr2 : cgrAux V t ((c2.1 + marker.1) / 2, (c2.2 + marker.2) / 2) with
      | error e2 =>
        rw [hr2] at h
        cases h
        exact iht _ _ hr2
      | ok tail =>
        rw [hr2] at h
        cases h

theorem cgrAux_error_iff (V : ℚ) :
    ∀ (seq : List Nat) (marker : ℚ × ℚ),
      ((∃ b ∈ seq, cgr_map V b = none) ↔
        cgrAux V seq marker =
          Except.error "Bad nucleotide, unable to proceed") := by
  intro seq
  induction seq with
  | nil =>
    intro marker
    constructor
    · intro ⟨b, hb, _⟩
      exact absurd hb (List.not_mem_nil b)
    · intro h
      rw [cgrAux] at h
      cases h
  | cons s rest ih =>
    intro marker
    rw [cgrAux]
    cases hm : cgr_map V s with
    | none =>
      constructor
      · intro _
        rfl
      · intro _
        exact ⟨s, List.mem_cons_self s rest, hm⟩
    | some corner =>
      cases hrec : cgrAux V rest
          ((corner.1 + marker.1) / 2, (corner.2 + marker.2) / 2) with
      | error e =>
        have he : e = "Bad nucleotide, unable to proceed" :=
          cgrAux_error_msg V rest _ e hrec
        subst he
        have hex : ∃ b ∈ rest, cgr_map V b = none := (ih _).mpr hrec
        constructor
        · intro _
          dsimp only
          rw [hrec]
        · intro _
          obtain ⟨b, hb, hbn⟩ := hex
          exact ⟨b, List.mem_cons_of_mem s hb, hbn⟩
      | ok tail =>
        constructor
        · intro ⟨b, hb, hbn⟩
          rcases List.mem_cons.mp hb with hbs | hbr
          · rw [hbs, hm] at hbn
            cases hbn
          · have := (ih ((corner.1 + marker.1) / 2,
                (corner.2 + marker.2) / 2)).mp ⟨b, hbr, hbn⟩
            rw [hrec] at this
            cases this
        · intro h
          dsimp only at h
          rw [hrec] at h
          cases h

/-- **C10.** Ambiguity asymmetry: whole-sequence CGR vectorisation fails
with the typed error `"Bad nucleotide, unable to proceed"` **iff** the
sequence contains a byte outside `ACGTU/acgtu` (and then produces no
row), and on success produces exactly one point per base; whereas the
composition path is total: it produces a fixed-size `C(k)`-slot
frequency vector for *every* byte sequence, ambiguous bases silently
skipped by the k-mer generator (as does the minimiser path, whose
`minimiserList` is a total function of the sequence). -/
theorem c10_ambiguity_asymmetry (V : ℚ) (k : Nat) (norm : Bool)
    (seq : List Nat) :
    ((∃ b ∈ seq, cgr_map V b = none) ↔
      cgrVectoriseOne V seq =
        Except.error "Bad nucleotide, unable to proceed") ∧
    (∀ pts, cgrVectoriseOne V seq = Except.ok pts →
      pts.length = seq.length) ∧
    (vectorise_one k norm seq).length = kmer_count k := by
  refine ⟨cgrAux_error_iff V seq _, fun pts h => cgrAux_ok_length V seq _ pts h, ?_⟩
  have hraw : (oligoVecRaw k seq).length = kmer_count k := by
    rw [oligoVecRaw_eq_count]
    simp
  rw [vectorise_one]
  cases norm with
  | false => rw [if_neg (by simp)]; exact hraw
  | true => rw [if_pos rfl, List.length_map]; exact hraw

/-! ### Claim C1: the external counter (`src/counter/src/lib.rs`) -/

/-- `entry(km).and_modify(|v| *v += c).or_insert(c)` on an association
list: add `c` to the entry of `km`, inserting it if absent. -/
def bump (m : List (Nat × Nat)) (km c : Nat) : List (Nat × Nat) :=
  match m with
  | [] => [(km, c)]
  | (k0, v0) :: rest =>
    if k0 = km then (k0, v0 + c) :: rest else (k0, v0) :: bump rest km c

theorem lookup_cons_eq (k v : Nat) (l : List (Nat × Nat)) :
    ((k, v) :: l).lookup k = some v := by
  simp [List.lookup]

theorem lookup_cons_ne (k k2 v : Nat) (l : List (Nat × Nat)) (h : k2 ≠ k) :
    ((k, v) :: l).lookup k2 = l.lookup k2 := by
  simp [List.lookup, beq_false_of_ne h]

theorem bump_lookup_self (m : List (Nat × Nat)) (a c : Nat) :
    (bump m a c).lookup a = some ((m.lookup a).getD 0 + c) := by
  induction m with
  | nil =>
    rw [bump]
    simp [List.lookup]
  | cons h t ih =>
    obtain ⟨k0, v0⟩ := h
    rw [bump]
    by_cases hk : k0 = a
    · subst hk
      rw [if_pos rfl, lookup_cons_eq, lookup_cons_eq]
      rfl
    · rw [if_neg hk, lookup_cons_ne _ _ _ _ (fun hc => hk hc.symm),
        lookup_cons_ne _ _ _ _ (fun hc => hk hc.symm)]
      exact ih

theorem bump_lookup_ne (m : List (Nat × Nat)) (a c b : Nat) (h : b ≠ a) :
    (bump m a c).lookup b = m.lookup b := by
  induction m with
  | nil =>
    rw [bump]
    simp [List.lookup, beq_false_of_ne h]
  | cons hd t ih =>
    obtain ⟨k0, v0⟩ := hd
    rw [bump]
    by_cases hk : k0 = a
    · subst hk
      rw [if_pos rfl, lookup_cons_ne _ _ _ _ h, lookup_cons_ne _ _ _ _ h]
    · rw [if_neg hk]
      by_cases hb : b = k0
      · subst hb
        rw [lookup_cons_eq, lookup_cons_eq]
      · rw [lookup_cons_ne _ _ _ _ hb, lookup_cons_ne _ _ _ _ hb]
        exact ih

theorem bump_mem_keys (m : List (Nat × Nat)) (a c b : Nat) :
    b ∈ (bump m a c).map Prod.fst ↔ (b ∈ m.map Prod.fst ∨ b = a) := by
  induction m with
  | nil =>
    rw [bump]
    simp
  | cons hd t ih =>
    obtain ⟨k0, v0⟩ := hd
    rw [bump]
    by_cases hk : k0 = a
    · subst hk
      rw [if_pos rfl]
      simp only [List.map_cons, List.mem_cons]
      tauto
    · rw [if_neg hk]
      simp only [List.map_cons, List.mem_cons]
      rw [ih]
      tauto

theorem bump_keys_nodup (m : List (Nat × Nat)) (a c : Nat)
    (h : (m.map Prod.fst).Nodup) : ((bump m a c).map Prod.fst).Nodup := by
  induction m with
  | nil =>
    rw [bump]
    simp
  | cons hd t ih =>
    obtain ⟨k0, v0⟩ := hd
    simp only [List.map_cons, List.nodup_cons] at h
    rw [bump]
    by_cases hk : k0 = a
    · subst hk
      rw [if_pos rfl]
      simp only [List.map_cons, List.nodup_cons]
      exact h
    · rw [if_neg hk]
      simp only [List.map_cons, List.nodup_cons]
      refine ⟨?_, ih h.2⟩
      intro hmem
      rcases (bump_mem_keys t a c k0).mp hmem with hin | heq
      · exact h.1 hin
      · exact hk heq

theorem bump_valueSum (m : List (Nat × Nat)) (a c : Nat) :
    ((bump m a c).map Prod.snd).sum = (m.map Prod.snd).sum + c := by
  induction m with
  | nil =>
    rw [bump]
    simp
  | cons hd t ih =>
    obtain ⟨k0, v0⟩ := hd
    rw [bump]
    by_cases hk : k0 = a
    · subst hk
      rw [if_pos rfl]
      simp only [List.map_cons, List.sum_cons]
      omega
    · rw [if_neg hk]
      simp only [List.map_cons, List.sum_cons]
      omega

/-- Folding a list of `(kmer, count)` lines into an association list with
`bump` (as the merge phase does line by line). -/
def addLines (init : List (Nat × Nat)) (items : List (Nat × Nat)) :
    List (Nat × Nat) :=
  items.foldl (fun m x => bump m x.1 x.2) init

theorem addLines_mem_keys (items : List (Nat × Nat)) :
    ∀ (init : List (Nat × Nat)) (b : Nat),
      b ∈ (addLines init items).map Prod.fst ↔
        (b ∈ init.map Prod.fst ∨ b ∈ items.map Prod.fst) := by
  induction items with
  | nil =>
    intro init b
    rw [addLines]
    simp
  | cons x t ih =>
    intro init b
    have hstep : addLines init (x :: t) = addLines (bump init x.1 x.2) t := rfl
    rw [hstep, ih]
    rw [bump_mem_keys]
    simp only [List.map_cons, List.mem_cons]
    tauto

theorem addLines_keys_nodup (items : List (Nat × Nat)) :
    ∀ (init : List (Nat × Nat)), (init.map Prod.fst).Nodup →
      ((addLines init items).map Prod.fst).Nodup := by
  induction items with
  | nil =>
    intro init h
    exact h
  | cons x t ih =>
    intro init h
    have hstep : addLines init (x :: t) = addLines (bump init x.1 x.2) t := rfl
    rw [hstep]
    exact ih _ (bump_keys_nodup init x.1 x.2 h)

theorem addLines_valueSum (items : List (Nat × Nat)) :
    ∀ (init : List (Nat × Nat)),
      ((addLines init items).map Prod.snd).sum =
        (init.map Prod.snd).sum + (items.map Prod.snd).sum := by
  induction items with
  | nil =>
    intro init
    simp [addLines]
  | cons x t ih =>
    intro init
    have hstep : addLines init (x :: t) = addLines (bump init x.1 x.2) t := rfl
    rw [hstep, ih, bump_valueSum]
    simp only [List.map_cons, List.sum_cons]
    omega

/-- Generic slot-indexed fold: updating slot `slot p` of a vector for
each item is the same as folding, at every index, over the items of that
slot. -/
theorem slot_fold_eq {β γ : Type} (slot : β → Nat) (upd : γ → β → γ)
    (e : γ) :
    ∀ (items : List β) (v : List γ),
    (∀ p ∈ items, slot p < v.length) →
    items.foldl (fun w p => w.set (slot p) (upd (w.getD (slot p) e) p)) v =
      (List.range v.length).map
        (fun j => (items.filter (fun p => slot p == j)).foldl upd
          (v.getD j e)) := by
  intro items
  induction items with
  | nil =>
    intro v _
    simp only [List.foldl_nil, List.filter_nil]
    apply List.ext_getElem
    · simp
    · intro j h1 h2
      rw [List.getElem_map, List.getElem_range,
        List.getD_eq_getElem v e (by simpa using h1)]
  | cons p t ih =>
    intro v hall
    have hs : slot p < v.length := hall p (List.mem_cons_self p t)
    simp only [List.foldl_cons]
    rw [ih (v.set (slot p) (upd (v.getD (slot p) e) p))
      (by intro x hx; rw [List.length_set]; exact hall x (List.mem_cons_of_mem p hx))]
    rw [List.length_set]
    apply List.map_congr_left
    intro j hj
    have hjv : j < v.length := List.mem_range.mp hj
    by_cases hjs : j = slot p
    · have hfc : List.filter (fun q => slot q == j) (p :: t) =
          p :: List.filter (fun q => slot q == j) t :=
        List.filter_cons_of_pos (beq_iff_eq.mpr hjs.symm)
      rw [hfc, hjs, getD_set_self v (slot p) _ e hs, List.foldl_cons]
    · have hfc : List.filter (fun q => slot q == j) (p :: t) =
          List.filter (fun q => slot q == j) t :=
        List.filter_cons_of_neg (by simpa using fun hc => hjs hc.symm)
      rw [hfc, getD_set_ne v (slot p) j _ e (fun hc => hjs hc.symm)]

/-- The canonical (min of forward and reverse-complement) k-mer stream of
one sequence. -/
def canonEmissions (k : Nat) (seq : List Nat) : List Nat :=
  (kmerList seq k).map (fun p => min p.1 p.2)

/-- All canonical emissions of one chunk of sequences, in order. -/
def chunkEmissions (k : Nat) (chunk : List (List Nat)) : List Nat :=
  (chunk.map (canonEmissions k)).flatten

/-- `CountComputer::count_chunk` (`src/counter/src/lib.rs`, lines
92–170): tally every canonical k-mer of the chunk into the partition
table indexed by `min_mer % n_parts`; the spill file of partition `p` is
the table's `p`-th map. -/
def countChunk (k P : Nat) (chunk : List (List Nat)) :
    List (List (Nat × Nat)) :=
  (chunkEmissions k chunk).foldl
    (fun tbls km => tbls.set (km % P) (bump (tbls.getD (km % P) []) km 1))
    (List.replicate P [])

/-- `CountComputer::merge` for one partition (`src/counter/src/lib.rs`,
lines 172–234): fold every chunk's partition-`p` spill lines into one
map with `*entry(kmer).or_insert(0) += count`. -/
def mergePart (k P : Nat) (chunks : List (List (List Nat))) (p : Nat) :
    List (Nat × Nat) :=
  chunks.foldl
    (fun m chunk => ((countChunk k P chunk).getD p []).foldl
      (fun m2 line => bump m2 line.1 line.2) m) []

/-- The final `kmers.counts` lines: the merged maps of partitions
`0, …, P-1` in order. -/
def finalCounts (k P : Nat) (chunks : List (List (List Nat))) :
    List (Nat × Nat) :=
  ((List.range P).map (fun p => mergePart k P chunks p)).flatten

/-- The single-threaded reference stream: every canonical k-mer emission
of the whole input, in order. -/
def refEmissions (k : Nat) (chunks : List (List (List Nat))) : List Nat :=
  (chunks.map (chunkEmissions k)).flatten

/-- The spill map of one chunk and one partition, as a filtered tally. -/
def partTally (P : Nat) (ems : List Nat) (p : Nat) : List (Nat × Nat) :=
  (ems.filter (fun km => km % P == p)).foldl (fun m km => bump m km 1) []

theorem countChunk_eq (k P : Nat) (chunk : List (List Nat)) (hP : 1 ≤ P) :
    countChunk k P chunk =
      (List.range P).map (fun p => partTally P (chunkEmissions k chunk) p) := by
  have hfold := slot_fold_eq (fun km : Nat => km % P)
    (fun m km => bump m km 1) ([] : List (Nat × Nat))
    (chunkEmissions k chunk) (List.replicate P [])
    (by
      intro x _
      rw [List.length_replicate]
      exact Nat.mod_lt x hP)
  rw [countChunk]
  simp only [hfold, List.length_replicate]
  apply List.map_congr_left
  intro p _
  rw [partTally, replicate_getD]

theorem countChunk_getD (k P : Nat) (chunk : List (List Nat)) (hP : 1 ≤ P)
    (p : Nat) (hp : p < P) :
    (countChunk k P chunk).getD p [] =
      partTally P (chunkEmissions k chunk) p := by
  rw [countChunk_eq k P chunk hP,
    List.getD_eq_getElem _ _ (by simpa using hp), List.getElem_map,
    List.getElem_range]

theorem partTally_eq_addLines (P : Nat) (ems : List Nat) (p : Nat) :
    partTally P ems p =
      addLines [] ((ems.filter (fun km => km % P == p)).map
        (fun km => (km, 1))) := by
  rw [partTally, addLines, List.foldl_map]

theorem partTally_mem_keys (P : Nat) (ems : List Nat) (p b : Nat) :
    b ∈ (partTally P ems p).map Prod.fst ↔
      (b ∈ ems ∧ b % P = p) := by
  rw [partTally_eq_addLines, addLines_mem_keys, List.map_map]
  simp only [List.map_nil, List.not_mem_nil, false_or]
  constructor
  · intro h
    have : b ∈ ems.filter (fun km => km % P == p) := by
      simpa using h
    have := List.mem_filter.mp this
    exact ⟨this.1, by simpa using this.2⟩
  · intro ⟨h1, h2⟩
    have : b ∈ ems.filter (fun km => km % P == p) :=
      List.mem_filter.mpr ⟨h1, by simpa using h2⟩
    simpa using this

theorem partTally_keys_nodup (P : Nat) (ems : List Nat) (p : Nat) :
    ((partTally P ems p).map Prod.fst).Nodup := by
  rw [partTally_eq_addLines]
  exact addLines_keys_nodup _ [] (by simp)

theorem sum_map_one {α : Type} (l : List α) :
    (l.map (fun _ => (1 : Nat))).sum = l.length := by
  induction l with
  | nil => rfl
  | cons a t ih =>
    simp only [List.map_cons, List.sum_cons, List.length_cons]
    omega

theorem partTally_valueSum (P : Nat) (ems : List Nat) (p : Nat) :
    ((partTally P ems p).map Prod.snd).sum =
      (ems.filter (fun km => km % P == p)).length := by
  rw [partTally_eq_addLines, addLines_valueSum, List.map_map]
  simp only [List.map_nil, List.sum_nil, Nat.zero_add]
  exact sum_map_one _

theorem mergePart_eq_addLines (k P : Nat) (chunks : List (List (List Nat)))
    (p : Nat) :
    mergePart k P chunks p =
      addLines []
        ((chunks.map (fun c => (countChunk k P c).getD p [])).flatten) := by
  rw [mergePart, addLines, List.foldl_flatten, List.foldl_map]

theorem mergePart_mem_keys (k P : Nat) (chunks : List (List (List Nat)))
    (hP : 1 ≤ P) (p : Nat) (hp : p < P) (b : Nat) :
    b ∈ (mergePart k P chunks p).map Prod.fst ↔
      (∃ chunk ∈ chunks, b ∈ chunkEmissions k chunk) ∧ b % P = p := by
  rw [mergePart_eq_addLines, addLines_mem_keys]
  simp only [List.map_nil, List.not_mem_nil, false_or]
  rw [List.map_flatten, List.map_map]
  constructor
  · intro h
    obtain ⟨l, hl, hbl⟩ := List.mem_flatten.mp h
    obtain ⟨chunk, hchunk, rfl⟩ := List.mem_map.mp hl
    have : b ∈ ((countChunk k P chunk).getD p []).map Prod.fst := hbl
    rw [countChunk_getD k P chunk hP p hp, partTally_mem_keys] at this
    exact ⟨⟨chunk, hchunk, this.1⟩, this.2⟩
  · intro ⟨⟨chunk, hchunk, hbe⟩, hmod⟩
    apply List.mem_flatten.mpr
    refine ⟨((countChunk k P chunk).getD p []).map Prod.fst, ?_, ?_⟩
    · exact List.mem_map.mpr ⟨chunk, hchunk, rfl⟩
    · rw [countChunk_getD k P chunk hP p hp, partTally_mem_keys]
      exact ⟨hbe, hmod⟩

theorem mergePart_keys_nodup (k P : Nat) (chunks : List (List (List Nat)))
    (p : Nat) :
    ((mergePart k P chunks p).map Prod.fst).Nodup := by
  rw [mergePart_eq_addLines]
  exact addLines_keys_nodup _ [] (by simp)

/-- Every key of the partition-`p` merged map has residue `p` (and for
`p ≥ P` the map is empty). -/
theorem mergePart_key_mod (k P : Nat) (chunks : List (List (List Nat)))
    (hP : 1 ≤ P) (p b : Nat)
    (hb : b ∈ (mergePart k P chunks p).map Prod.fst) : b % P = p := by
  by_cases hp : p < P
  · exact ((mergePart_mem_keys k P chunks hP p hp b).mp hb).2
  · exfalso
    rw [mergePart_eq_addLines, addLines_mem_keys] at hb
    simp only [List.map_nil, List.not_mem_nil, false_or] at hb
    rw [List.map_flatten, List.map_map] at hb
    obtain ⟨l, hl, hbl⟩ := List.mem_flatten.mp hb
    obtain ⟨chunk, _, rfl⟩ := List.mem_map.mp hl
    have hshape : (countChunk k P chunk).getD p [] = [] := by
      apply List.getD_eq_default
      rw [countChunk_eq k P chunk hP, List.length_map, List.length_range]
      omega
    have hbl2 : b ∈ ((countChunk k P chunk).getD p []).map Prod.fst := hbl
    rw [hshape] at hbl2
    simp at hbl2

theorem mergePart_valueSum (k P : Nat) (chunks : List (List (List Nat)))
    (hP : 1 ≤ P) (p : Nat) (hp : p < P) :
    ((mergePart k P chunks p).map Prod.snd).sum =
      ((refEmissions k chunks).filter (fun km => km % P == p)).length := by
  rw [mergePart_eq_addLines, addLines_valueSum]
  simp only [List.map_nil, List.sum_nil, Nat.zero_add]
  rw [List.map_flatten, List.sum_flatten, List.map_map, List.map_map]
  rw [refEmissions, List.filter_flatten, List.length_flatten, List.map_map,
    List.map_map]
  apply congrArg
  apply List.map_congr_left
  intro chunk _
  show ((((countChunk k P chunk).getD p []).map Prod.snd)).sum =
    ((chunkEmissions k chunk).filter (fun km => km % P == p)).length
  rw [countChunk_getD k P chunk hP p hp, partTally_valueSum]

theorem sum_map_add_distrib {α : Type} (l : List α) (f g : α → Nat) :
    (l.map (fun x => f x + g x)).sum = (l.map f).sum + (l.map g).sum := by
  induction l with
  | nil => rfl
  | cons a t ih =>
    simp only [List.map_cons, List.sum_cons]
    omega

theorem sum_map_indicator (P s : Nat) (h : s < P) :
    ((List.range P).map (fun p => if s = p then (1 : Nat) else 0)).sum = 1 := by
  induction P with
  | zero => omega
  | succ Q ih =>
    rw [List.range_succ, List.map_append, List.sum_append]
    by_cases hs : s = Q
    · have hzero : ∀ p ∈ List.range Q,
          (if s = p then (1 : Nat) else 0) = 0 := by
        intro p hp
        rw [if_neg]
        have := List.mem_range.mp hp
        omega
      rw [List.map_congr_left hzero]
      simp [hs]
    · rw [ih (by omega)]
      simp [hs]

theorem sum_filter_lengths (P : Nat) (hP : 1 ≤ P) (l : List Nat) :
    ((List.range P).map
      (fun p => (l.filter (fun a => a % P == p)).length)).sum = l.length := by
  induction l with
  | nil => simp
  | cons a t ih =>
    have hsplit : ∀ p ∈ List.range P,
        ((a :: t).filter (fun x => x % P == p)).length =
          (if a % P = p then (1 : Nat) else 0) +
            (t.filter (fun x => x % P == p)).length := by
      intro p _
      by_cases hap : a % P = p
      · have hfc : List.filter (fun x => x % P == p) (a :: t) =
            a :: List.filter (fun x => x % P == p) t :=
          List.filter_cons_of_pos (beq_iff_eq.mpr hap)
        rw [hfc, if_pos hap, List.length_cons]
        omega
      · have hfc : List.filter (fun x => x % P == p) (a :: t) =
            List.filter (fun x => x % P == p) t :=
          List.filter_cons_of_neg (by simpa using hap)
        rw [hfc, if_neg hap]
        omega
    rw [List.map_congr_left hsplit, sum_map_add_distrib,
      sum_map_indicator P (a % P) (Nat.mod_lt a hP), ih, List.length_cons]
    omega

/-- **C1.** Counter exactness for every input collection (as chunks of
sequences), k-mer size and partition count `P ≥ 1`: the final counts
lines have pairwise-distinct k-mers; a canonical k-mer appears **iff**
it is emitted by the single-threaded reference run; the sum of all
written counts equals the reference run's total number of canonical
emissions (nothing lost or double-counted); and a chunk's spill line for
k-mer `km` lands in partition `p` iff `km % P = p` — every line of
partition `p` has `km % P = p`, and every emitted k-mer is present in
its own partition's spill map. -/
theorem c1_counter_exactness (k P : Nat) (chunks : List (List (List Nat)))
    (hP : 1 ≤ P) :
    ((finalCounts k P chunks).map Prod.fst).Nodup ∧
    (∀ km, km ∈ (finalCounts k P chunks).map Prod.fst ↔
      km ∈ refEmissions k chunks) ∧
    ((finalCounts k P chunks).map Prod.snd).sum =
      (refEmissions k chunks).length ∧
    (∀ chunk ∈ chunks, ∀ p, p < P →
      ∀ line ∈ (countChunk k P chunk).getD p [], line.1 % P = p) ∧
    (∀ chunk ∈ chunks, ∀ km ∈ chunkEmissions k chunk,
      ∃ c, (km, c) ∈ (countChunk k P chunk).getD (km % P) []) := by
  refine ⟨?_, ?_, ?_, ?_, ?_⟩
  · -- distinct k-mers across the whole file
    rw [finalCounts, List.map_flatten, List.map_map]
    rw [List.nodup_flatten]
    constructor
    · intro l hl
      obtain ⟨p, _, rfl⟩ := List.mem_map.mp hl
      exact mergePart_keys_nodup k P chunks p
    · rw [List.pairwise_map]
      have hlt : (List.range P).Pairwise (· < ·) := List.pairwise_lt_range P
      apply hlt.imp
      intro p q hpq
      intro b hbp hbq
      have h1 := mergePart_key_mod k P chunks hP p b hbp
      have h2 := mergePart_key_mod k P chunks hP q b hbq
      omega
  · -- membership iff emitted
    intro km
    rw [finalCounts, List.map_flatten, List.map_map]
    constructor
    · intro h
      obtain ⟨l, hl, hbl⟩ := List.mem_flatten.mp h
      obtain ⟨p, hp, rfl⟩ := List.mem_map.mp hl
      have hp' : p < P := List.mem_range.mp hp
      have := (mergePart_mem_keys k P chunks hP p hp' km).mp hbl
      obtain ⟨⟨chunk, hchunk, hbe⟩, _⟩ := this
      rw [refEmissions]
      exact List.mem_flatten.mpr
        ⟨chunkEmissions k chunk, List.mem_map.mpr ⟨chunk, hchunk, rfl⟩, hbe⟩
    · intro h
      rw [refEmissions] at h
      obtain ⟨l, hl, hbl⟩ := List.mem_flatten.mp h
      obtain ⟨chunk, hchunk, rfl⟩ := List.mem_map.mp hl
      have hmod : km % P < P := Nat.mod_lt km hP
      apply List.mem_flatten.mpr
      refine ⟨(mergePart k P chunks (km % P)).map Prod.fst, ?_, ?_⟩
      · exact List.mem_map.mpr ⟨km % P, List.mem_range.mpr hmod, rfl⟩
      · exact (mergePart_mem_keys k P chunks hP (km % P) hmod km).mpr
          ⟨⟨chunk, hchunk, hbl⟩, rfl⟩
  · -- total count conservation
    rw [finalCounts, List.map_flatten, List.sum_flatten, List.map_map,
      List.map_map]
    simp only [Function.comp_def]
    have hcongr : ∀ p ∈ List.range P,
        ((mergePart k P chunks p).map Prod.snd).sum =
          ((refEmissions k chunks).filter (fun km => km % P == p)).length := by
      intro p hp
      exact mergePart_valueSum k P chunks hP p (List.mem_range.mp hp)
    rw [List.map_congr_left hcongr]
    exact sum_filter_lengths P hP (refEmissions k chunks)
  · -- spill lines stay in their partition
    intro chunk _ p hp line hline
    rw [countChunk_getD k P chunk hP p hp] at hline
    have : line.1 ∈ (partTally P (chunkEmissions k chunk) p).map Prod.fst :=
      List.mem_map.mpr ⟨line, hline, rfl⟩
    exact ((partTally_mem_keys P _ p line.1).mp this).2
  · -- every emission reaches its own partition's spill map
    intro chunk _ km hkm
    have hmod : km % P < P := Nat.mod_lt km hP
    have : km ∈ (partTally P (chunkEmissions k chunk) (km % P)).map Prod.fst :=
      (partTally_mem_keys P _ (km % P) km).mpr ⟨hkm, rfl⟩
    rw [← countChunk_getD k P chunk hP (km % P) hmod] at this
    obtain ⟨line, hline, hfst⟩ := List.mem_map.mp this
    refine ⟨line.2, ?_⟩
    have hpair : (km, line.2) = line := by rw [← hfst]
    rw [hpair]
    exact hline

/-- Witness for `c1_counter_exactness`: two chunks of one sequence each
(`ACGTT` and `GGT`), `k = 2`, `P = 2`. -/
theorem c1_counter_exactness_witness :
    (1 : Nat) ≤ 2 ∧
    (((finalCounts 2 2 [[[65, 67, 71, 84, 84]], [[71, 71, 84]]]).map
        Prod.fst).Nodup ∧
      ((finalCounts 2 2 [[[65, 67, 71, 84, 84]], [[71, 71, 84]]]).map
        Prod.snd).sum =
        (refEmissions 2 [[[65, 67, 71, 84, 84]], [[71, 71, 84]]]).length) :=
  ⟨by decide,
   (c1_counter_exactness 2 2 [[[65, 67, 71, 84, 84]], [[71, 71, 84]]]
      (by decide)).1,
   (c1_counter_exactness 2 2 [[[65, 67, 71, 84, 84]], [[71, 71, 84]]]
      (by decide)).2.2.1⟩

/-! ### Claim C8: indexed-mode (mmap) determinism
(`OligoComputer::vectorise_mmap`, `src/composition/src/oligo.rs`,
lines 157–219) -/

/-- The fixed-width rendering `format!("{:.6}", val)` of a normalised
value in `[0, 10)`: one integer digit, a dot, six fractional digits —
always exactly `NUMBER_SIZE = 8` bytes. (A deterministic 8-byte model of
the f64 formatter; only its determinism and length matter below.) -/
def fmt8 (q : ℚ) : List Nat :=
  (48 + (⌊q * 1000000⌋).toNat / 1000000 % 10) :: 46 ::
    (List.range 6).map
      (fun i => 48 + (⌊q * 1000000⌋).toNat % 1000000 / 10 ^ (5 - i) % 10)

/-- One output row: the formatted values joined by the delimiter byte,
terminated by `\n` (`format!("{}\n", kvec_str.join(&self.delim))`). -/
def rowBytes (delim : Nat) (vals : List ℚ) : List Nat :=
  match vals with
  | [] => [10]
  | v :: rest => fmt8 v ++ (rest.map (fun u => delim :: fmt8 u)).flatten ++ [10]

/-- The bytes of the row of one sequence in indexed mode (always
normalised: `assert!(self.norm)`). -/
def oligoRow (k delim : Nat) (seq : List Nat) : List Nat :=
  rowBytes delim (vectorise_one k true seq)

/-- `MMWriter::write_at`: overwrite `bytes.length` bytes starting at
`pos`, leaving every other byte of the map unchanged. -/
def writeAt (mem : Nat → Nat) (bytes : List Nat) (pos : Nat) : Nat → Nat :=
  fun i => if pos ≤ i ∧ i < pos + bytes.length then bytes.getD (i - pos) 0
    else mem i

/-- The mmap after a worker schedule `recs` (the `(record.n, seq)` pairs
in the order the threads dequeued them) has processed every record:
each is written at `start_pos = kvec_str.len() * record.n + header_len`. -/
def mmapRun (k delim headerLen : Nat) (recs : List (Nat × List Nat))
    (mem0 : Nat → Nat) : Nat → Nat :=
  recs.foldl
    (fun mem r => writeAt mem (oligoRow k delim r.2)
      (headerLen + (oligoRow k delim r.2).length * r.1))
    mem0

theorem fmt8_length (q : ℚ) : (fmt8 q).length = 8 := by
  simp [fmt8]

theorem sum_map_const {α : Type} (l : List α) (c : Nat) :
    (l.map (fun _ => c)).sum = c * l.length := by
  induction l with
  | nil => simp
  | cons a t ih =>
    simp only [List.map_cons, List.sum_cons, List.length_cons, ih]
    ring

theorem rowBytes_length (delim : Nat) (vals : List ℚ) (h : 1 ≤ vals.length) :
    (rowBytes delim vals).length = vals.length * 9 := by
  cases vals with
  | nil => simp at h
  | cons v rest =>
    rw [rowBytes]
    simp only [List.length_append, List.length_flatten, List.map_map,
      fmt8_length, List.length_cons]
    have hlen : ∀ u ∈ rest, (List.length ∘ fun u => delim :: fmt8 u) u = 9 := by
      intro u _
      show (delim :: fmt8 u).length = 9
      rw [List.length_cons, fmt8_length]
    rw [List.map_congr_left hlen, sum_map_const]
    simp only [List.length_nil]
    omega

/-- Every row has the same fixed length
`L_row = C(k) * (NUMBER_SIZE + 1) = C(k) * 9`. -/
theorem oligoRow_length (k delim : Nat) (seq : List Nat) :
    (oligoRow k delim seq).length = kmer_count k * 9 := by
  rw [oligoRow, rowBytes_length]
  · rw [vectorise_one]
    have hraw : (oligoVecRaw k seq).length = kmer_count k := by
      rw [oligoVecRaw_eq_count]
      simp
    rw [if_pos rfl, List.length_map, hraw]
  · rw [vectorise_one]
    have hraw : (oligoVecRaw k seq).length = kmer_count k := by
      rw [oligoVecRaw_eq_count]
      simp
    rw [if_pos rfl, List.length_map, hraw]
    exact kmer_count_pos k

/-- Two writes to disjoint ranges commute. -/
theorem writeAt_comm (mem : Nat → Nat) (b1 b2 : List Nat) (p1 p2 : Nat)
    (h : p1 + b1.length ≤ p2 ∨ p2 + b2.length ≤ p1) :
    writeAt (writeAt mem b1 p1) b2 p2 =
      writeAt (writeAt mem b2 p2) b1 p1 := by
  funext i
  rw [writeAt, writeAt, writeAt, writeAt]
  by_cases h2 : p2 ≤ i ∧ i < p2 + b2.length
  · by_cases h1 : p1 ≤ i ∧ i < p1 + b1.length
    · exfalso
      omega
    · rw [if_pos h2, if_neg h1, if_pos h2]
  · by_cases h1 : p1 ≤ i ∧ i < p1 + b1.length
    · rw [if_neg h2, if_pos h1, if_pos h1]
    · rw [if_neg h2, if_neg h1, if_neg h1, if_neg h2]

/-- Schedule invariance: any two thread interleavings (permutations of
the records, ordinals pairwise distinct) leave the mmap in the same
state. -/
theorem mmapRun_perm (k delim headerLen : Nat)
    (l1 l2 : List (Nat × List Nat)) (hperm : l1.Perm l2) :
    (l1.map Prod.fst).Nodup →
      ∀ mem0, mmapRun k delim headerLen l1 mem0 =
        mmapRun k delim headerLen l2 mem0 := by
  induction hperm with
  | nil =>
    intro _ _
    rfl
  | cons x h ih =>
    intro hnd mem0
    simp only [List.map_cons, List.nodup_cons] at hnd
    exact ih hnd.2 _
  | swap x y l =>
    intro hnd mem0
    simp only [List.map_cons, List.nodup_cons, List.mem_cons] at hnd
    have hxy : y.1 ≠ x.1 := fun hc => hnd.1 (Or.inl hc)
    have hL : 0 < kmer_count k * 9 := by
      have := kmer_count_pos k
      omega
    have hcomm :
        writeAt (writeAt mem0 (oligoRow k delim y.2)
            (headerLen + (oligoRow k delim y.2).length * y.1))
          (oligoRow k delim x.2)
          (headerLen + (oligoRow k delim x.2).length * x.1) =
        writeAt (writeAt mem0 (oligoRow k delim x.2)
            (headerLen + (oligoRow k delim x.2).length * x.1))
          (oligoRow k delim y.2)
          (headerLen + (oligoRow k delim y.2).length * y.1) := by
      apply writeAt_comm
      rw [oligoRow_length, oligoRow_length]
      rcases Nat.lt_or_ge y.1 x.1 with hlt | hge
      · left
        have : y.1 + 1 ≤ x.1 := hlt
        calc headerLen + kmer_count k * 9 * y.1 + kmer_count k * 9
            = headerLen + kmer_count k * 9 * (y.1 + 1) := by ring
          _ ≤ headerLen + kmer_count k * 9 * x.1 := by
              have := Nat.mul_le_mul_left (kmer_count k * 9) this
              omega
      · right
        have hlt' : x.1 < y.1 := by omega
        have : x.1 + 1 ≤ y.1 := hlt'
        calc headerLen + kmer_count k * 9 * x.1 + kmer_count k * 9
            = headerLen + kmer_count k * 9 * (x.1 + 1) := by ring
          _ ≤ headerLen + kmer_count k * 9 * y.1 := by
              have := Nat.mul_le_mul_left (kmer_count k * 9) this
              omega
    show mmapRun k delim headerLen l _ = mmapRun k delim headerLen l _
    exact congrArg (fun m => mmapRun k delim headerLen l m) hcomm
  | trans h12 h23 ih12 ih23 =>
    intro hnd mem0
    rw [ih12 hnd mem0, ih23 ((h12.map Prod.fst).nodup_iff.mp hnd) mem0]

/-- **C8.** Indexed-mode determinism: every row has the fixed length
`L_row = C(k) * (NUMBER_SIZE + 1)`; the write for ordinal `n` can only
change bytes in the contiguous range
`[header_len + n * L_row, header_len + (n+1) * L_row)` (so ranges of
distinct ordinals are disjoint); and the final mmap contents are the
same for every thread interleaving of the records — in particular a
1-thread and an N-thread run produce byte-identical output. -/
theorem c8_indexed_mode_determinism (k delim headerLen : Nat)
    (recs1 recs2 : List (Nat × List Nat)) (mem0 : Nat → Nat)
    (hperm : recs1.Perm recs2)
    (hnodup : (recs1.map Prod.fst).Nodup) :
    (∀ r : Nat × List Nat,
      (oligoRow k delim r.2).length = kmer_count k * (8 + 1)) ∧
    (∀ (mem : Nat → Nat) (r : Nat × List Nat) (i : Nat),
      (writeAt mem (oligoRow k delim r.2)
          (headerLen + (oligoRow k delim r.2).length * r.1)) i ≠ mem i →
        headerLen + kmer_count k * 9 * r.1 ≤ i ∧
          i < headerLen + kmer_count k * 9 * (r.1 + 1)) ∧
    mmapRun k delim headerLen recs1 mem0 =
      mmapRun k delim headerLen recs2 mem0 := by
  refine ⟨?_, ?_, mmapRun_perm k delim headerLen recs1 recs2 hperm hnodup mem0⟩
  · intro r
    exact oligoRow_length k delim r.2
  · intro mem r i hne
    rw [writeAt] at hne
    by_cases hin : headerLen + (oligoRow k delim r.2).length * r.1 ≤ i ∧
        i < headerLen + (oligoRow k delim r.2).length * r.1 +
          (oligoRow k delim r.2).length
    · rw [oligoRow_length] at hin
      constructor
      · omega
      · have h2 := hin.2
        calc i < headerLen + kmer_count k * 9 * r.1 + kmer_count k * 9 := h2
          _ = headerLen + kmer_count k * 9 * (r.1 + 1) := by ring
    · rw [if_neg hin] at hne
      exact absurd rfl hne

/-- Witness for `c8_indexed_mode_determinism`: two records in the two
opposite dequeue orders. -/
theorem c8_indexed_mode_determinism_witness :
    ([((0 : Nat), [65, 67]), (1, [71, 84])].Perm
        [((1 : Nat), [71, 84]), (0, [65, 67])] ∧
      (([((0 : Nat), [65, 67]), (1, [71, 84])].map Prod.fst).Nodup)) ∧
    mmapRun 2 32 0 [((0 : Nat), [65, 67]), (1, [71, 84])] (fun _ => 0) =
      mmapRun 2 32 0 [((1 : Nat), [71, 84]), (0, [65, 67])] (fun _ => 0) :=
  ⟨⟨List.Perm.swap _ _ _, by decide⟩,
   (c8_indexed_mode_determinism 2 32 0
      [((0 : Nat), [65, 67]), (1, [71, 84])]
      [((1 : Nat), [71, 84]), (0, [65, 67])] (fun _ => 0)
      (List.Perm.swap _ _ _) (by decide)).2.2⟩

end Kmertools
